import Mathlib

/-!
# A verification development for the MArrayCRDT repository

Shallow embedding of the Movable Array CRDT of `marraycrdt/marraycrdt.go`.

Modelling conventions:
* Go `string` site identifiers are modelled as `List Char`; Go's byte-wise
  lexicographic `<`/`>` on strings is the lexicographic order on `List Char`.
* A Go `map[string]uint64` vector clock is modelled as an association list
  `List (SiteID × Nat)`; Go map iteration order never influences any result
  below (all iterations either commute or are followed by a total sort).
* `float64` positions are modelled as `ℚ` (only order and field operations on
  positions are used by the code paths involved in the claims).
* `generateUUID()` is modelled by passing the fresh identifier as an explicit
  argument to the operations that create elements.
* In-place mutation through pointers is modelled by state passing; the sorted
  cache of `[]*Element` pointers is modelled as a cached list of element ids
  (dereferencing a cached pointer = looking the id up in the current map).
* Go panics (out-of-range slice indexing) are modelled by `Option`: a result
  `none` means the operation panics.
-/

/-- Site identifiers (Go `string`), ordered lexicographically like Go `<`. -/
abbrev SiteID := List Char

/-- `VectorClock`: Go `map[string]uint64`, as an association list. -/
abbrev VC := List (SiteID × Nat)

namespace VC

/-- Reading `vc.clocks[site]`: a missing entry reads as 0 (Go map default). -/
def get (vc : VC) (s : SiteID) : Nat :=
  match vc with
  | [] => 0
  | p :: rest => if p.1 = s then p.2 else get rest s

/-- The key set of the clock map. -/
def keys (vc : VC) : List SiteID := vc.map Prod.fst

/-- Store `vc.clocks[site] = c` (update if present, insert otherwise). -/
def setKey (vc : VC) (s : SiteID) (c : Nat) : VC :=
  if (vc.keys).contains s then
    vc.map (fun p => if p.1 = s then (p.1, c) else p)
  else vc ++ [(s, c)]

/-- `Increment`: `vc.clocks[siteID]++`. -/
def increment (vc : VC) (s : SiteID) : VC := vc.setKey s (vc.get s + 1)

/-- `Merge`: pointwise max — adopt the other's entry when strictly greater. -/
def mergeVC (vc other : VC) : VC :=
  other.foldl (fun acc p => if acc.get p.1 < p.2 then acc.setKey p.1 p.2 else acc) vc

/-- `After` on two non-nil clocks, exactly as in the Go source: every own
entry at least as big as the other's, some entry strictly bigger, and no
key of the other that is missing here while positive there. -/
def afterB (vc other : VC) : Bool :=
  vc.all (fun p => other.get p.1 ≤ p.2) &&
  other.all (fun p => (vc.keys).contains p.1 || p.2 == 0) &&
  vc.any (fun p => other.get p.1 < p.2)

/-- `Concurrent`: neither clock is `After` the other. -/
def concB (vc other : VC) : Bool := !vc.afterB other && !other.afterB vc

/-- `GetMaxSite`: the largest key of the map (Go iterates keys, starting from
the empty string). -/
def maxSite (vc : VC) : SiteID :=
  vc.foldl (fun m p => if m < p.1 then p.1 else m) []

/-- Well-formedness of a clock as produced by the Go code: no duplicate map
keys, and every stored counter is positive (entries are only ever created by
`Increment` from 0 or adopted by `Merge` when strictly greater). -/
def wf (vc : VC) : Prop := vc.keys.Nodup ∧ ∀ p ∈ vc, 0 < p.2

instance : DecidablePred wf := fun vc => by unfold wf; infer_instance

end VC

section VCLemmas

open VC

theorem get_eq_of_mem {vc : VC} (h : vc.keys.Nodup) {s : SiteID} {c : Nat}
    (hm : (s, c) ∈ vc) : vc.get s = c := by
  induction vc with
  | nil => cases hm
  | cons p rest ih =>
    simp only [VC.keys, List.map_cons, List.nodup_cons] at h
    rcases List.mem_cons.mp hm with heq | htl
    · subst heq; simp [VC.get]
    · have hne : p.1 ≠ s := by
        intro hps
        exact h.1 (List.mem_map.mpr ⟨(s, c), htl, hps.symm⟩)
      simpa [VC.get, hne] using ih h.2 htl

theorem mem_of_get_pos {vc : VC} {s : SiteID} (h : 0 < vc.get s) :
    (s, vc.get s) ∈ vc := by
  induction vc with
  | nil => simp [VC.get] at h
  | cons p rest ih =>
    by_cases hps : p.1 = s
    · subst hps
      have hg : VC.get (p :: rest) p.1 = p.2 := by simp [VC.get]
      rw [hg] at h ⊢
      exact List.mem_cons_self _ _
    · have hg : VC.get (p :: rest) s = VC.get rest s := by simp [VC.get, hps]
      rw [hg] at h ⊢
      exact List.mem_cons_of_mem _ (ih h)

theorem keys_contains_iff {vc : VC} {s : SiteID} :
    (vc.keys).contains s = true ↔ ∃ c, (s, c) ∈ vc := by
  simp only [VC.keys, List.contains_eq_any_beq, List.any_eq_true]
  constructor
  · rintro ⟨a, ha, hb⟩
    rcases List.mem_map.mp ha with ⟨p, hp, rfl⟩
    have hps : s = p.1 := by simpa using hb
    exact ⟨p.2, by rw [hps]; exact hp⟩
  · rintro ⟨c, hc⟩
    exact ⟨s, List.mem_map.mpr ⟨(s, c), hc, rfl⟩, by simp⟩

/-- Under well-formedness, `afterB` is pointwise dominance plus strictness. -/
theorem afterB_iff {a b : VC} (ha : a.wf) (hb : b.wf) :
    a.afterB b = true ↔ (∀ s, b.get s ≤ a.get s) ∧ (∃ s, b.get s < a.get s) := by
  unfold VC.afterB
  simp only [Bool.and_eq_true, List.all_eq_true, List.any_eq_true, Bool.or_eq_true,
    decide_eq_true_eq, beq_iff_eq]
  constructor
  · rintro ⟨⟨h1, h2⟩, h3⟩
    constructor
    · intro s
      by_cases hpos : 0 < b.get s
      · have hmem := mem_of_get_pos hpos
        rcases h2 _ hmem with hc | hz
        · rcases keys_contains_iff.mp hc with ⟨c, hc'⟩
          have hgc := get_eq_of_mem ha.1 hc'
          have h1' := h1 _ hc'
          simp only at h1' hgc
          omega
        · simp only at hz; omega
      · omega
    · rcases h3 with ⟨⟨s0, c0⟩, hp, hlt⟩
      have hga := get_eq_of_mem ha.1 hp
      simp only at hlt
      exact ⟨s0, by omega⟩
  · rintro ⟨h1, h2⟩
    refine ⟨⟨?_, ?_⟩, ?_⟩
    · rintro ⟨s0, c0⟩ hp
      have hga := get_eq_of_mem ha.1 hp
      have hle := h1 s0
      simp only
      omega
    · rintro ⟨s0, c0⟩ hp
      left
      have hpos := hb.2 _ hp
      simp only at hpos
      have hbg : 0 < b.get s0 := by have := get_eq_of_mem hb.1 hp; omega
      have hag : 0 < a.get s0 := lt_of_lt_of_le hbg (h1 s0)
      simp only
      exact keys_contains_iff.mpr ⟨a.get s0, mem_of_get_pos hag⟩
    · rcases h2 with ⟨s, hs⟩
      have hag : 0 < a.get s := by omega
      refine ⟨(s, a.get s), mem_of_get_pos hag, ?_⟩
      simp only
      omega

theorem afterB_trans {a b c : VC} (ha : a.wf) (hb : b.wf) (hc : c.wf)
    (h1 : a.afterB b = true) (h2 : b.afterB c = true) : a.afterB c = true := by
  rw [afterB_iff ha hb] at h1
  rw [afterB_iff hb hc] at h2
  rw [afterB_iff ha hc]
  rcases h1 with ⟨hd1, s1, hs1⟩
  rcases h2 with ⟨hd2, s2, hs2⟩
  exact ⟨fun s => le_trans (hd2 s) (hd1 s), s2, lt_of_lt_of_le hs2 (hd1 s2)⟩

theorem afterB_asymm {a b : VC} (ha : a.wf) (hb : b.wf)
    (h1 : a.afterB b = true) : b.afterB a = false := by
  rw [afterB_iff ha hb] at h1
  by_contra h
  have h2 : b.afterB a = true := by
    cases hx : b.afterB a
    · exact absurd hx h
    · rfl
  rw [afterB_iff hb ha] at h2
  rcases h1 with ⟨hd1, s1, hs1⟩
  rcases h2 with ⟨hd2, -, -⟩
  exact absurd (hd2 s1) (by omega)

theorem afterB_irrefl {a : VC} (ha : a.wf) : a.afterB a = false := by
  cases hx : a.afterB a
  · rfl
  · rw [afterB_iff ha ha] at hx
    rcases hx with ⟨-, s, hs⟩
    omega

theorem nil_le_site (x : SiteID) : ([] : SiteID) ≤ x :=
  le_of_not_lt (fun h => by cases h)

theorem foldl_site_init_le (l : List (SiteID × Nat)) (init : SiteID) :
    init ≤ l.foldl (fun m p => if m < p.1 then p.1 else m) init := by
  induction l generalizing init with
  | nil => exact le_refl _
  | cons p rest ih =>
    simp only [List.foldl_cons]
    by_cases hlt : init < p.1
    · rw [if_pos hlt]
      exact le_trans (le_of_lt hlt) (ih p.1)
    · rw [if_neg hlt]
      exact ih init

theorem le_foldl_site (l : List (SiteID × Nat)) (init : SiteID) :
    ∀ p ∈ l, p.1 ≤ l.foldl (fun m q => if m < q.1 then q.1 else m) init := by
  induction l generalizing init with
  | nil => intro p hp; cases hp
  | cons q rest ih =>
    intro p hp
    simp only [List.foldl_cons]
    rcases List.mem_cons.mp hp with rfl | htl
    · by_cases hlt : init < p.1
      · rw [if_pos hlt]; exact foldl_site_init_le rest p.1
      · rw [if_neg hlt]
        exact le_trans (le_of_not_lt hlt) (foldl_site_init_le rest init)
    · exact ih _ p htl

theorem foldl_site_mem (l : List (SiteID × Nat)) (init : SiteID) :
    l.foldl (fun m q => if m < q.1 then q.1 else m) init = init ∨
      (l.foldl (fun m q => if m < q.1 then q.1 else m) init) ∈ l.map Prod.fst := by
  induction l generalizing init with
  | nil => exact Or.inl rfl
  | cons q rest ih =>
    simp only [List.foldl_cons, List.map_cons]
    by_cases hlt : init < q.1
    · rw [if_pos hlt]
      rcases ih q.1 with h | h
      · exact Or.inr (by rw [h]; exact List.mem_cons_self _ _)
      · exact Or.inr (List.mem_cons_of_mem _ h)
    · rw [if_neg hlt]
      rcases ih init with h | h
      · exact Or.inl h
      · exact Or.inr (List.mem_cons_of_mem _ h)

/-- If `a` strictly dominates `b` then `b`'s key set is contained in `a`'s,
so `GetMaxSite` can only grow along `After`. -/
theorem maxSite_le_of_afterB {a b : VC} (ha : a.wf) (hb : b.wf)
    (h : a.afterB b = true) : b.maxSite ≤ a.maxSite := by
  have hsub : ∀ s ∈ b.keys, s ∈ a.keys := by
    intro s hs
    rcases List.mem_map.mp hs with ⟨p, hp, rfl⟩
    have hpos := hb.2 _ hp
    have hbg : 0 < b.get p.1 := by
      have := get_eq_of_mem hb.1 (by exact hp)
      omega
    have hag : 0 < a.get p.1 := by
      rw [afterB_iff ha hb] at h
      have := h.1 p.1
      omega
    exact List.mem_map.mpr ⟨(p.1, a.get p.1), mem_of_get_pos hag, rfl⟩
  unfold VC.maxSite
  rcases foldl_site_mem b [] with hB | hB
  · rw [hB]; exact nil_le_site _
  · have : b.maxSite ∈ a.keys := hsub _ hB
    rcases List.mem_map.mp this with ⟨p, hp, hfst⟩
    have := le_foldl_site a [] p hp
    unfold VC.maxSite at *
    rw [hfst] at this
    exact this

end VCLemmas

/-! ## The delete-vs-move resolution fold (`resolveDeleteStatusLWW`) -/

/-- One candidate operation of `resolveDeleteStatusLWW`: a clock tagged with
whether it is a delete. (The Go `Source` string is informational only.) -/
structure DelOp where
  clock : VC
  isDelete : Bool
  deriving DecidableEq

/-- One iteration of the `latestOp` selection loop of the Go source:
a later candidate replaces the current best only if its clock is `After`,
or when concurrent and its `GetMaxSite` is strictly (lexicographically)
greater. -/
def pickStep (cur op : DelOp) : DelOp :=
  if op.clock.afterB cur.clock then op
  else if cur.clock.afterB op.clock then cur
  else if cur.clock.maxSite < op.clock.maxSite then op
  else cur

/-- The whole `latestOp` loop: `nil` start, surviving candidate wins. -/
def pickLatest (ops : List DelOp) : Option DelOp :=
  match ops with
  | [] => none
  | o :: rest => some (rest.foldl pickStep o)

/-- The property the spec ascribes to the winner `w` relative to any other
candidate `e`: `e` never dominates `w`, and `w` either dominates `e` or has
the (lexicographically) at-least-as-great dominant replica. -/
def WinsOver (w e : DelOp) : Prop :=
  e.clock.afterB w.clock = false ∧
    (w.clock.afterB e.clock = true ∨ e.clock.maxSite ≤ w.clock.maxSite)

theorem winsOver_refl {w : DelOp} (hw : w.clock.wf) : WinsOver w w :=
  ⟨afterB_irrefl hw, Or.inr (le_refl _)⟩

theorem pickStep_cases (cur op : DelOp) : pickStep cur op = cur ∨ pickStep cur op = op := by
  unfold pickStep
  by_cases h1 : op.clock.afterB cur.clock = true
  · simp [h1]
  · by_cases h2 : cur.clock.afterB op.clock = true
    · simp [h1, h2]
    · by_cases h3 : cur.clock.maxSite < op.clock.maxSite
      · simp [h1, h2, h3]
      · simp [h1, h2, h3]

/-- Any element already beaten by the current best stays beaten by the
outcome of one more loop iteration. -/
theorem winsOver_step_old {cur op e : DelOp} (hc : cur.clock.wf) (ho : op.clock.wf)
    (he : e.clock.wf) (hE : WinsOver cur e) : WinsOver (pickStep cur op) e := by
  unfold pickStep
  by_cases h1 : op.clock.afterB cur.clock = true
  · rw [if_pos h1]
    rcases hE with ⟨hE1, hE2⟩
    constructor
    · cases hx : e.clock.afterB op.clock
      · rfl
      · exact absurd (afterB_trans he ho hc hx h1) (by rw [hE1]; simp)
    · rcases hE2 with h | h
      · exact Or.inl (afterB_trans ho hc he h1 h)
      · exact Or.inr (le_trans h (maxSite_le_of_afterB ho hc h1))
  · rw [if_neg h1]
    by_cases h2 : cur.clock.afterB op.clock = true
    · rw [if_pos h2]; exact hE
    · rw [if_neg h2]
      by_cases h3 : cur.clock.maxSite < op.clock.maxSite
      · rw [if_pos h3]
        rcases hE with ⟨hE1, hE2⟩
        have hems : e.clock.maxSite ≤ cur.clock.maxSite := by
          rcases hE2 with h | h
          · exact maxSite_le_of_afterB hc he h
          · exact h
        constructor
        · cases hx : e.clock.afterB op.clock
          · rfl
          · have := maxSite_le_of_afterB he ho hx
            exact absurd (lt_of_le_of_lt (le_trans this hems) h3) (lt_irrefl _)
        · exact Or.inr (le_trans hems (le_of_lt h3))
      · rw [if_neg h3]; exact hE

/-- Both inputs of one loop iteration are beaten by its outcome. -/
theorem winsOver_step_new {cur op : DelOp} (hc : cur.clock.wf) (ho : op.clock.wf) :
    WinsOver (pickStep cur op) cur ∧ WinsOver (pickStep cur op) op := by
  unfold pickStep
  by_cases h1 : op.clock.afterB cur.clock = true
  · rw [if_pos h1]
    exact ⟨⟨afterB_asymm ho hc h1, Or.inl h1⟩, winsOver_refl ho⟩
  · rw [if_neg h1]
    have h1' : op.clock.afterB cur.clock = false := by
      cases hx : op.clock.afterB cur.clock
      · rfl
      · exact absurd hx h1
    by_cases h2 : cur.clock.afterB op.clock = true
    · rw [if_pos h2]
      exact ⟨winsOver_refl hc, ⟨h1', Or.inl h2⟩⟩
    · have h2' : cur.clock.afterB op.clock = false := by
        cases hx : cur.clock.afterB op.clock
        · rfl
        · exact absurd hx h2
      rw [if_neg h2]
      by_cases h3 : cur.clock.maxSite < op.clock.maxSite
      · rw [if_pos h3]
        exact ⟨⟨h2', Or.inr (le_of_lt h3)⟩, winsOver_refl ho⟩
      · rw [if_neg h3]
        exact ⟨winsOver_refl hc, ⟨h1', Or.inr (le_of_not_lt h3)⟩⟩

/-- Folding the selection loop from `cur` over `l`: the survivor is one of
the candidates, previously beaten candidates stay beaten, and every
candidate of `l` (and `cur` itself) ends up beaten by the survivor. -/
theorem foldl_pick_spec (l : List DelOp) (cur : DelOp) (hc : cur.clock.wf)
    (hl : ∀ o ∈ l, o.clock.wf) :
    (l.foldl pickStep cur = cur ∨ l.foldl pickStep cur ∈ l) ∧
      (∀ e : DelOp, e.clock.wf → WinsOver cur e → WinsOver (l.foldl pickStep cur) e) ∧
      (∀ o ∈ l, WinsOver (l.foldl pickStep cur) o) := by
  induction l generalizing cur with
  | nil =>
    exact ⟨Or.inl rfl, fun e _ h => h, fun o ho => absurd ho (List.not_mem_nil o)⟩
  | cons o rest ih =>
    have ho : o.clock.wf := hl o (List.mem_cons_self _ _)
    have hrest : ∀ o' ∈ rest, o'.clock.wf := fun o' h => hl o' (List.mem_cons_of_mem _ h)
    have hc' : (pickStep cur o).clock.wf := by
      rcases pickStep_cases cur o with h | h <;> rw [h]
      · exact hc
      · exact ho
    obtain ⟨ihmem, ihtrans, ihall⟩ := ih (pickStep cur o) hc' hrest
    simp only [List.foldl_cons]
    refine ⟨?_, ?_, ?_⟩
    · rcases ihmem with h | h
      · rcases pickStep_cases cur o with h2 | h2
        · exact Or.inl (by rw [h, h2])
        · exact Or.inr (by rw [h, h2]; exact List.mem_cons_self _ _)
      · exact Or.inr (List.mem_cons_of_mem _ h)
    · intro e hew hE
      exact ihtrans e hew (winsOver_step_old hc ho hew hE)
    · intro o' ho'
      rcases List.mem_cons.mp ho' with rfl | htl
      · exact ihtrans o' ho (winsOver_step_new hc ho).2
      · exact ihall o' htl

/-- The specification of the Go `latestOp` selection loop: on a nonempty
candidate list of well-formed clocks it returns a candidate that no other
candidate dominates and whose dominant replica is maximal among candidates
it does not itself dominate. -/
theorem pickLatest_spec (ops : List DelOp) (hwf : ∀ o ∈ ops, o.clock.wf)
    (hne : ops ≠ []) :
    ∃ w ∈ ops, pickLatest ops = some w ∧ ∀ e ∈ ops, WinsOver w e := by
  match ops with
  | [] => exact absurd rfl hne
  | o :: rest =>
    have ho : o.clock.wf := hwf o (List.mem_cons_self _ _)
    have hrest : ∀ o' ∈ rest, o'.clock.wf := fun o' h => hwf o' (List.mem_cons_of_mem _ h)
    obtain ⟨hmem, htrans, hall⟩ := foldl_pick_spec rest o ho hrest
    refine ⟨rest.foldl pickStep o, ?_, rfl, ?_⟩
    · rcases hmem with h | h
      · rw [h]; exact List.mem_cons_self _ _
      · exact List.mem_cons_of_mem _ h
    · intro e he
      rcases List.mem_cons.mp he with rfl | htl
      · exact htrans e ho (winsOver_refl ho)
      · exact hall e htl

/-! ## Data model (`MArrayCRDT`, `Element`, `Config`) -/

/-- Element identifiers (Go `string` UUIDs, 32 hex chars). -/
abbrev ElemID := List Char

/-- `VersionedValue`: value facet with its own clock. -/
structure VersionedValue (T : Type) where
  data : T
  clock : VC
  deriving DecidableEq

/-- `VersionedIndex`: position facet with its own clock. -/
structure VersionedIndex where
  pos : ℚ
  clock : VC
  deriving DecidableEq

/-- `Element`: stable id plus three independently versioned facets.
`summary` is the Go field `Element.VectorClock`. -/
structure Element (T : Type) where
  id : ElemID
  value : VersionedValue T
  index : VersionedIndex
  summary : VC
  deleted : Bool
  deleteClock : Option VC
  deriving DecidableEq

/-- `Config` (the Go `LessFunc` is an optional comparator). -/
structure Config (T : Type) where
  autoReindex : Bool
  reindexThreshold : ℚ
  initialIndex : ℚ
  indexSpacing : ℚ
  keepSorted : Bool
  less : Option (T → T → Bool)

/-- `defaultConfig()`. -/
def defaultConfig (T : Type) : Config T :=
  { autoReindex := true, reindexThreshold := 1 / 10000, initialIndex := 1000,
    indexSpacing := 1000, keepSorted := false, less := none }

/-- `MArrayCRDT`: the replica state. The Go `sortedCache []*Element` is
modelled as a list of element ids (a cached pointer dereference is a lookup
in the current element map). -/
structure MArray (T : Type) where
  items : List (ElemID × Element T)
  siteID : SiteID
  clock : VC
  config : Config T
  sortedCache : List ElemID
  cacheValid : Bool

/-- `New(siteID)` with the default configuration. -/
def newReplica (T : Type) (site : SiteID) : MArray T :=
  { items := [], siteID := site, clock := [], config := defaultConfig T,
    sortedCache := [], cacheValid := false }

namespace MArray

variable {T : Type}

/-- Go map read `ma.items[id]`. -/
def lookupE (items : List (ElemID × Element T)) (id : ElemID) : Option (Element T) :=
  match items with
  | [] => none
  | p :: rest => if p.1 = id then some p.2 else lookupE rest id

/-- In-place mutation of the element a map entry points to. -/
def updateE (items : List (ElemID × Element T)) (id : ElemID) (e : Element T) :
    List (ElemID × Element T) :=
  items.map (fun p => if p.1 = id then (p.1, e) else p)

/-- The comparison used by `getSortedElementsLocked`: by position, with the
element id as tiebreaker on exactly equal positions. -/
def elemLess (a b : Element T) : Bool :=
  if a.index.pos ≠ b.index.pos then decide (a.index.pos < b.index.pos)
  else decide (a.id < b.id)

/-- Insertion into a sorted list under a strict comparator. -/
def insertSorted (less : α → α → Bool) (a : α) : List α → List α
  | [] => [a]
  | b :: rest => if less a b then a :: b :: rest else b :: insertSorted less a rest

/-- Sorting under a strict total comparator (the Go code uses `sort.Slice`;
for the strict total order `elemLess` on distinct ids the sorted result is
unique, so the algorithm choice is immaterial). -/
def sortByLess (less : α → α → Bool) : List α → List α
  | [] => []
  | a :: rest => insertSorted less a (sortByLess less rest)

/-- `getSortedElementsLocked`: return the cache if valid, else filter the
live elements, sort by `(position, id)`, store and return the cache. -/
def getSortedIds (ma : MArray T) : List ElemID × MArray T :=
  if ma.cacheValid then (ma.sortedCache, ma)
  else
    let live := ma.items.filter (fun p => !p.2.deleted)
    let ids := (sortByLess (fun a b => elemLess a.2 b.2) live).map Prod.fst
    (ids, { ma with sortedCache := ids, cacheValid := true })

/-- The positions of the non-deleted elements (what the `findMaxIndexLocked`
and `findMinIndexLocked` loops range over). -/
def livePositions (ma : MArray T) : List ℚ :=
  (ma.items.filter (fun p => !p.2.deleted)).map (fun p => p.2.index.pos)

/-- `findMaxIndexLocked`: `initialIndex` when the map is empty or has no
live element, else the maximum live position. -/
def findMaxIndex (ma : MArray T) : ℚ :=
  if ma.items.isEmpty then ma.config.initialIndex
  else
    match livePositions ma with
    | [] => ma.config.initialIndex
    | x :: xs => xs.foldl max x

/-- `findMinIndexLocked`. -/
def findMinIndex (ma : MArray T) : ℚ :=
  if ma.items.isEmpty then ma.config.initialIndex
  else
    match livePositions ma with
    | [] => ma.config.initialIndex
    | x :: xs => xs.foldl min x

/-- Re-stamp the elements listed in `ids` (in order) to positions
`(i+1)*spacing`, all with the same shared clock — used by `reindexLocked`
and `maintainSortLocked`, which clone one clock for every element. -/
def restampShared (spacing : ℚ) (shared : VC) :
    List (ElemID × Element T) → List ElemID → Nat → List (ElemID × Element T)
  | items, [], _ => items
  | items, i :: rest, n =>
    let items' :=
      match lookupE items i with
      | none => items
      | some e =>
          updateE items i
            { e with index := { pos := ((n : ℚ) + 1) * spacing, clock := shared },
                     summary := e.summary.mergeVC shared }
    restampShared spacing shared items' rest (n + 1)

/-- `reindexLocked`: renumber all live elements to `i*spacing`, one fork of
the clock, cloned (hence equal) for every element. -/
def reindex (ma : MArray T) : MArray T :=
  let (sorted, ma) := getSortedIds ma
  let clock' := ma.clock.increment ma.siteID
  let shared := clock'.increment ma.siteID
  { ma with items := restampShared ma.config.indexSpacing shared ma.items sorted 0,
            clock := clock', cacheValid := false }

/-- `checkReindexLocked`: reindex when two adjacent materialized positions
are closer than the threshold. -/
def checkReindex (ma : MArray T) : MArray T :=
  if !ma.config.autoReindex then ma
  else
    let (sorted, ma) := getSortedIds ma
    if sorted.length < 2 then ma
    else
      let poss := sorted.filterMap (fun i => (lookupE ma.items i).map (fun e => e.index.pos))
      let needs := (poss.zip poss.tail).any
        (fun pq => decide (pq.2 - pq.1 < ma.config.reindexThreshold))
      if needs then reindex ma else ma

/-- `maintainSortLocked`: sort live elements by the configured comparator on
values and renumber, one forked clock cloned for every element. -/
def maintainSort (ma : MArray T) : MArray T :=
  match ma.config.keepSorted, ma.config.less with
  | true, some less =>
    let (sorted, ma) := getSortedIds ma
    let elems := sorted.filterMap (fun i => lookupE ma.items i)
    let resorted := (sortByLess (fun a b => less a.value.data b.value.data) elems).map (·.id)
    let clock' := ma.clock.increment ma.siteID
    let shared := clock'.increment ma.siteID
    { ma with items := restampShared ma.config.indexSpacing shared ma.items resorted 0,
              clock := clock', cacheValid := false }
  | _, _ => ma

/-- `Push(value)`: stamp the three facet clocks by forking the replica clock
(before it is incremented) and incrementing each fork; position is
`findMaxIndexLocked() + spacing`. The fresh UUID is passed in as `id`. -/
def push (ma : MArray T) (id : ElemID) (v : T) : MArray T :=
  let maxIndex := findMaxIndex ma
  let elem : Element T :=
    { id := id
      value := { data := v, clock := ma.clock.increment ma.siteID }
      index := { pos := maxIndex + ma.config.indexSpacing,
                 clock := ma.clock.increment ma.siteID }
      summary := ma.clock.increment ma.siteID
      deleted := false
      deleteClock := none }
  let ma' := { ma with items := ma.items ++ [(id, elem)],
                       clock := ma.clock.increment ma.siteID,
                       cacheValid := false }
  if ma'.config.keepSorted then maintainSort ma' else ma'

/-- `Unshift(value)`: like `Push` but at `findMinIndexLocked() - spacing`. -/
def unshift (ma : MArray T) (id : ElemID) (v : T) : MArray T :=
  let minIndex := findMinIndex ma
  let elem : Element T :=
    { id := id
      value := { data := v, clock := ma.clock.increment ma.siteID }
      index := { pos := minIndex - ma.config.indexSpacing,
                 clock := ma.clock.increment ma.siteID }
      summary := ma.clock.increment ma.siteID
      deleted := false
      deleteClock := none }
  let ma' := { ma with items := ma.items ++ [(id, elem)],
                       clock := ma.clock.increment ma.siteID,
                       cacheValid := false }
  if ma'.config.keepSorted then maintainSort ma' else ma'

/-- `Set(id, value)`: fails on an unknown or deleted id; otherwise
increments the replica clock, stamps the value facet with a fork
incremented once more, and merges it into the summary clock. -/
def set (ma : MArray T) (id : ElemID) (v : T) : MArray T × Bool :=
  match lookupE ma.items id with
  | none => (ma, false)
  | some elem =>
    if elem.deleted then (ma, false)
    else
      let clock' := ma.clock.increment ma.siteID
      let vclock := clock'.increment ma.siteID
      let elem' :=
        { elem with
            value := { data := v, clock := vclock }
            summary := elem.summary.mergeVC vclock }
      ({ ma with items := updateE ma.items id elem', clock := clock' }, true)

/-- `deleteElementLocked` / `Delete(id)`. -/
def deleteElem (ma : MArray T) (id : ElemID) : MArray T × Bool :=
  match lookupE ma.items id with
  | none => (ma, false)
  | some elem =>
    if elem.deleted then (ma, false)
    else
      let clock' := ma.clock.increment ma.siteID
      let dclock := clock'.increment ma.siteID
      let elem' :=
        { elem with
            deleted := true
            deleteClock := some dclock
            summary := elem.summary.mergeVC dclock }
      ({ ma with items := updateE ma.items id elem', clock := clock',
                 cacheValid := false }, true)

/-- Go slice indexing `l[i]` on an `int` index: `none` models the panic on
an out-of-range index. -/
def idxGet (l : List α) (i : Int) : Option α :=
  if 0 ≤ i ∧ i < (l.length : Int) then l[i.toNat]? else none

/-- `Move(id, toIndex)`: resurrects a deleted element, then computes the
target position from the materialized view (which may be a stale cache).
`none` models a Go panic (out-of-range slice access). -/
def move (ma : MArray T) (id : ElemID) (toIndex : Int) : Option (MArray T × Bool) :=
  match lookupE ma.items id with
  | none => some (ma, false)
  | some elem0 =>
    let elem := if elem0.deleted then { elem0 with deleted := false, deleteClock := none }
                else elem0
    let ma := { ma with items := updateE ma.items id elem }
    let (sorted, ma) := getSortedIds ma
    let n : Int := sorted.length
    let t0 := if toIndex < 0 then 0 else toIndex
    let t := if t0 ≥ n then n - 1 else t0
    let posOf : ElemID → Option ℚ := fun i => (lookupE ma.items i).map (fun e => e.index.pos)
    let newPos? : Option ℚ :=
      if t = 0 then
        (idxGet sorted 0).bind posOf |>.map (fun p => p - ma.config.indexSpacing)
      else if t ≥ n - 1 then
        (idxGet sorted (n - 1)).bind posOf |>.map (fun p => p + ma.config.indexSpacing)
      else
        let target := sorted.filter (fun i => i ≠ id)
        if 0 < t ∧ t ≤ (target.length : Int) then
          ((idxGet target (t - 1)).bind posOf).bind (fun p =>
            ((idxGet target t).bind posOf).map (fun q => (p + q) / 2))
        else
          (idxGet target t).bind posOf |>.map (fun p => p - ma.config.indexSpacing)
    newPos?.map (fun newPos =>
      let clock' := ma.clock.increment ma.siteID
      let iclock := clock'.increment ma.siteID
      let elem' :=
        { elem with
            index := { pos := newPos, clock := iclock }
            summary := elem.summary.mergeVC iclock }
      let ma' := { ma with items := updateE ma.items id elem', clock := clock',
                           cacheValid := false }
      (if ma'.config.autoReindex then checkReindex ma' else ma', true))

/-- `Clear()`: one replica-clock step; every live element gets `deleted`,
and a clone of the same forked clock as its delete clock. -/
def clear (ma : MArray T) : MArray T :=
  let clock' := ma.clock.increment ma.siteID
  let shared := clock'.increment ma.siteID
  let items := ma.items.map (fun p =>
    if p.2.deleted then p
    else (p.1, { p.2 with deleted := true, deleteClock := some shared,
                          summary := p.2.summary.mergeVC shared }))
  { ma with items := items, clock := clock', cacheValid := false }

/-- `ToSlice()`: the materialized values (possibly from the cache). -/
def toSlice (ma : MArray T) : List T × MArray T :=
  let (sorted, ma) := getSortedIds ma
  (sorted.filterMap (fun i => (lookupE ma.items i).map (fun e => e.value.data)), ma)

/-- `IDs()`: the materialized ids (possibly from the cache). -/
def idsOf (ma : MArray T) : List ElemID × MArray T := getSortedIds ma

/-- `Len()`: number of non-deleted elements. -/
def lenOf (ma : MArray T) : Nat :=
  (ma.items.filter (fun p => !p.2.deleted)).length

/-- `Get(index)`. -/
def getAt (ma : MArray T) (i : Int) : Option T × MArray T :=
  let (sorted, ma) := getSortedIds ma
  if 0 ≤ i ∧ i < (sorted.length : Int) then
    ((idxGet sorted i).bind (fun id => (lookupE ma.items id).map (fun e => e.value.data)), ma)
  else (none, ma)

end MArray

/-! ## The merge engine (`Merge`, `mergeElementWithLWW`, `resolveDeleteStatusLWW`) -/

namespace MArray

variable {T : Type}

/-- The candidate operations of `resolveDeleteStatusLWW`, in the order the
Go source appends them: local delete, remote delete (each only if a delete
clock exists), local move, remote move. -/
def resolveCandidates (localE remote : Element T) : List DelOp :=
  (match localE.deleteClock with | some c => [⟨c, true⟩] | none => []) ++
  (match remote.deleteClock with | some c => [⟨c, true⟩] | none => []) ++
  [⟨localE.index.clock, false⟩, ⟨remote.index.clock, false⟩]

/-- `resolveDeleteStatusLWW`: the tag of the candidate selected by the
`latestOp` loop (`false` when there is no candidate). -/
def resolveDeleteStatus (localE remote : Element T) : Bool :=
  match pickLatest (resolveCandidates localE remote) with
  | some w => w.isDelete
  | none => false

/-- The value-facet LWW of `mergeElementWithLWW`: adopt the remote value if
its clock is `After`, or if concurrent with the (lexicographically) greater
`GetMaxSite`. -/
def mergeValueFacet (localE remote : Element T) : VersionedValue T :=
  if remote.value.clock.afterB localE.value.clock then
    { data := remote.value.data, clock := remote.value.clock }
  else if localE.value.clock.concB remote.value.clock &&
          decide (localE.value.clock.maxSite < remote.value.clock.maxSite) then
    { data := remote.value.data, clock := remote.value.clock }
  else localE.value

/-- Whether the position-facet LWW of `mergeElementWithLWW` adopts the
remote position (this is also when the Go code invalidates the cache). -/
def adoptIndex (localE remote : Element T) : Bool :=
  remote.index.clock.afterB localE.index.clock ||
    (localE.index.clock.concB remote.index.clock &&
      decide (localE.index.clock.maxSite < remote.index.clock.maxSite))

/-- The position facet after the LWW step. -/
def mergeIndexFacet (localE remote : Element T) : VersionedIndex :=
  if adoptIndex localE remote then { pos := remote.index.pos, clock := remote.index.clock }
  else localE.index

/-- The local element after the value and position facets have been merged
in place; the Go code runs `resolveDeleteStatusLWW` on this element. -/
def postFacet (localE remote : Element T) : Element T :=
  { localE with value := mergeValueFacet localE remote,
                index := mergeIndexFacet localE remote }

/-- The delete-clock update at the end of `mergeElementWithLWW`: keep the
dominating delete clock when the element stays deleted, clear it otherwise. -/
def mergedDeleteClock (localE remote : Element T) : Option VC :=
  if resolveDeleteStatus (postFacet localE remote) remote then
    if remote.deleted then
      match remote.deleteClock, localE.deleteClock with
      | some rdc, none => some rdc
      | some rdc, some ldc => if rdc.afterB ldc then some rdc else some ldc
      | none, ldc => ldc
    else localE.deleteClock
  else none

/-- `mergeElementWithLWW`: per-facet LWW for value and position, then the
delete-status resolution (run, as in the source, on the element whose value
and position facets have already been merged), then the delete-clock update.
The returned flag records whether the position facet was adopted. -/
def mergeElement (localE remote : Element T) : Element T × Bool :=
  ({ postFacet localE remote with
      deleted := resolveDeleteStatus (postFacet localE remote) remote
      deleteClock := mergedDeleteClock localE remote },
   adoptIndex localE remote)

/-- `Merge(other)`: iterate the remote element map; clone unknown elements,
merge known ones per facet; merge each remote element's summary clock into
the local element's summary clock and into the replica clock. The cache is
invalidated only for new elements and adopted positions (exactly as in the
source). -/
def merge (ma other : MArray T) : MArray T :=
  let ma' := other.items.foldl (fun acc p =>
    match lookupE acc.items p.1 with
    | none =>
        { acc with items := acc.items ++ [(p.1, p.2)]
                   clock := acc.clock.mergeVC p.2.summary
                   cacheValid := false }
    | some le =>
        let m := mergeElement le p.2
        let m1 := { m.1 with summary := m.1.summary.mergeVC p.2.summary }
        { acc with items := updateE acc.items p.1 m1
                   clock := acc.clock.mergeVC p.2.summary
                   cacheValid := acc.cacheValid && !m.2 }) ma
  if ma'.config.keepSorted then maintainSort ma' else ma'

end MArray

/-! ## The remaining reordering operations (`Insert`, `MoveAfter`,
`MoveBefore`, `Swap`) -/

namespace MArray

variable {T : Type}

/-- In-place mutation of the element a map entry points to, reading it
first (a no-op when the id is unknown, which cannot happen through a live
Go pointer). -/
def modifyE (items : List (ElemID × Element T)) (id : ElemID)
    (f : Element T → Element T) : List (ElemID × Element T) :=
  match lookupE items id with
  | none => items
  | some e => updateE items id (f e)

/-- The element-creation core shared by the `Insert` transcription: forked
(pre-increment) facet clocks, each incremented once, appended to the map,
replica clock incremented, cache invalidated — exactly the stamping block
of the Go `Insert` (and structurally the same block as `Push`/`Unshift`). -/
def insertStamp (ma : MArray T) (id : ElemID) (v : T) (pos : ℚ) : MArray T :=
  let elem : Element T :=
    { id := id
      value := { data := v, clock := ma.clock.increment ma.siteID }
      index := { pos := pos, clock := ma.clock.increment ma.siteID }
      summary := ma.clock.increment ma.siteID
      deleted := false
      deleteClock := none }
  { ma with items := ma.items ++ [(id, elem)],
            clock := ma.clock.increment ma.siteID,
            cacheValid := false }

/-- `Insert(index, value)`: position from the materialized view (ends use
`findMin`/`findMax` ± spacing, interior uses the midpoint of the two
neighbours), then the stamping block, then the auto-reindex and keep-sorted
maintenance. `none` models a Go panic on slice indexing (unreachable for
the in-range interior branch, but transcribed). The fresh UUID is passed in
as `id`. -/
def insertAt (ma : MArray T) (id : ElemID) (k : Int) (v : T) : Option (MArray T) :=
  let (sorted, ma1) := getSortedIds ma
  let posOf : ElemID → Option ℚ := fun i => (lookupE ma1.items i).map (fun e => e.index.pos)
  let newPos? : Option ℚ :=
    if k ≤ 0 then some (findMinIndex ma1 - ma1.config.indexSpacing)
    else if k ≥ (sorted.length : Int) then some (findMaxIndex ma1 + ma1.config.indexSpacing)
    else if k = 0 then
      ((idxGet sorted 0).bind posOf).map (fun p => p - ma1.config.indexSpacing)
    else
      ((idxGet sorted (k - 1)).bind posOf).bind (fun p =>
        ((idxGet sorted k).bind posOf).map (fun q => (p + q) / 2))
  newPos?.map (fun pos =>
    let ma2 := insertStamp ma1 id v pos
    let ma3 := if ma2.config.autoReindex then checkReindex ma2 else ma2
    if ma3.config.keepSorted then maintainSort ma3 else ma3)

/-- The scan of `MoveAfter` once the anchor has been seen: the first
element whose id differs from the moved id. -/
def findFirstNe : List ElemID → ElemID → Option ElemID
  | [], _ => none
  | e :: rest, id => if e ≠ id then some e else findFirstNe rest id

/-- The `MoveAfter` loop: walk the materialized ids; after the first
occurrence of the anchor, pick the first id different from the moved id. -/
def findNextAfter : List ElemID → ElemID → ElemID → Option ElemID
  | [], _, _ => none
  | e :: rest, afterID, id =>
    if e = afterID then findFirstNe rest id else findNextAfter rest afterID id

/-- The `MoveBefore` loop: walk the materialized ids keeping the last id
different from the moved id, stopping at the anchor. -/
def findPrevBefore : List ElemID → ElemID → ElemID → Option ElemID → Option ElemID
  | [], _, _, prev => prev
  | e :: rest, beforeID, id, prev =>
    if e = beforeID then prev
    else if e ≠ id then findPrevBefore rest beforeID id (some e)
    else findPrevBefore rest beforeID id prev

/-- `MoveAfter(id, afterID)`: fails on an unknown mover or an unknown or
deleted anchor; resurrects the mover; places it at the midpoint of the
anchor and its successor (or anchor + spacing at the tail); stamps the
position facet like `Move`; runs the auto-reindex maintenance. A cached id
always resolves in the map (elements are never removed), so the pointer
dereference of the successor is modelled by a map lookup whose `none` case
coincides with the no-successor branch. -/
def moveAfter (ma : MArray T) (id afterID : ElemID) : MArray T × Bool :=
  match lookupE ma.items id with
  | none => (ma, false)
  | some elem0 =>
    match lookupE ma.items afterID with
    | none => (ma, false)
    | some after =>
      if after.deleted then (ma, false)
      else
        let elem := if elem0.deleted then { elem0 with deleted := false, deleteClock := none }
                    else elem0
        let ma1 := { ma with items := updateE ma.items id elem }
        let (sorted, ma2) := getSortedIds ma1
        let nextPos? := (findNextAfter sorted afterID id).bind
          (fun i => (lookupE ma2.items i).map (fun e => e.index.pos))
        let newPos :=
          match nextPos? with
          | some np => (after.index.pos + np) / 2
          | none => after.index.pos + ma2.config.indexSpacing
        let clock' := ma2.clock.increment ma2.siteID
        let iclock := clock'.increment ma2.siteID
        let elem' :=
          { elem with
              index := { pos := newPos, clock := iclock }
              summary := elem.summary.mergeVC iclock }
        let ma'' := { ma2 with items := updateE ma2.items id elem', clock := clock',
                               cacheValid := false }
        (if ma''.config.autoReindex then checkReindex ma'' else ma'', true)

/-- `MoveBefore(id, beforeID)`: symmetric to `MoveAfter`, placing the mover
at the midpoint of the anchor's predecessor and the anchor (or anchor −
spacing at the head). -/
def moveBefore (ma : MArray T) (id beforeID : ElemID) : MArray T × Bool :=
  match lookupE ma.items id with
  | none => (ma, false)
  | some elem0 =>
    match lookupE ma.items beforeID with
    | none => (ma, false)
    | some before =>
      if before.deleted then (ma, false)
      else
        let elem := if elem0.deleted then { elem0 with deleted := false, deleteClock := none }
                    else elem0
        let ma1 := { ma with items := updateE ma.items id elem }
        let (sorted, ma2) := getSortedIds ma1
        let prevPos? := (findPrevBefore sorted beforeID id none).bind
          (fun i => (lookupE ma2.items i).map (fun e => e.index.pos))
        let newPos :=
          match prevPos? with
          | some pp => (pp + before.index.pos) / 2
          | none => before.index.pos - ma2.config.indexSpacing
        let clock' := ma2.clock.increment ma2.siteID
        let iclock := clock'.increment ma2.siteID
        let elem' :=
          { elem with
              index := { pos := newPos, clock := iclock }
              summary := elem.summary.mergeVC iclock }
        let ma'' := { ma2 with items := updateE ma2.items id elem', clock := clock',
                               cacheValid := false }
        (if ma''.config.autoReindex then checkReindex ma'' else ma'', true)

/-- `Swap(id1, id2)`: fails if either id is unknown or deleted; swaps the
two positions through the two pointers, then stamps each element's position
facet in turn, incrementing the replica clock before each stamp — so the
two stamps carry different clocks. Pointer mutations are modelled by
`modifyE`, which also reproduces the Go aliasing behaviour when
`id1 = id2`. -/
def swap (ma : MArray T) (id1 id2 : ElemID) : MArray T × Bool :=
  match lookupE ma.items id1, lookupE ma.items id2 with
  | some e1, some e2 =>
    if e1.deleted || e2.deleted then (ma, false)
    else
      let c1 := ma.clock.increment ma.siteID
      let p1 := e1.index.pos
      let p2 := e2.index.pos
      let items1 := modifyE ma.items id1
        (fun e => { e with index := { pos := p2, clock := e.index.clock } })
      let items2 := modifyE items1 id2
        (fun e => { e with index := { pos := p1, clock := e.index.clock } })
      let ic1 := c1.increment ma.siteID
      let items3 := modifyE items2 id1
        (fun e => { e with index := { pos := e.index.pos, clock := ic1 },
                           summary := e.summary.mergeVC ic1 })
      let c2 := c1.increment ma.siteID
      let ic2 := c2.increment ma.siteID
      let items4 := modifyE items3 id2
        (fun e => { e with index := { pos := e.index.pos, clock := ic2 },
                           summary := e.summary.mergeVC ic2 })
      ({ ma with items := items4, clock := c2, cacheValid := false }, true)
  | _, _ => (ma, false)

end MArray

/-! ## Concrete executions used by the claim analyses

All runs use only public operations (`New`, `Push`, `Set`, `Delete`, `Move`,
`Clear`, `ToSlice`, `Merge`), so every state below is API-reachable. -/

namespace Scenario

open MArray

def eid : ElemID := ['e']
def f1 : ElemID := ['f']
def g1 : ElemID := ['g']

/-- Replica "B" pushes one element `eid` with value "x". -/
def c1B : MArray String := (newReplica String ['B']).push eid "x"
/-- Replica "A" receives it by merging. -/
def c1A : MArray String := (newReplica String ['A']).merge c1B
/-- Concurrent `Set`s of the same element on the two replicas. -/
def c1A2 : MArray String := (c1A.set eid "v1").1
def c1B2 : MArray String := (c1B.set eid "v2").1
/-- Bidirectional merge: `A.Merge(B)` then `B.Merge(A)`. -/
def c1A3 : MArray String := c1A2.merge c1B2
def c1B3 : MArray String := c1B2.merge c1A3

/-- Replica "A" pushes `eid`, then materializes the view (filling the cache). -/
def c3A : MArray String := ((newReplica String ['A']).push eid "x").toSlice.2
/-- Replica "B" receives the element and deletes it. -/
def c3B : MArray String := (((newReplica String ['B']).merge c3A).deleteElem eid).1
/-- "A" merges the deletion. -/
def c3A2 : MArray String := c3A.merge c3B

/-- Push, delete, then materialize the (now empty) view into the cache. -/
def c4A3 : MArray String := (((newReplica String ['A']).push eid "x").deleteElem eid).1.toSlice.2

/-- An empty replica, and the result of pushing onto it. -/
def c5A : MArray String := newReplica String ['A']
def c5P : MArray String := c5A.push eid "x"

/-- Two live elements, then `Clear`. -/
def c7A2 : MArray String := (((newReplica String ['A']).push f1 "x").push g1 "y").clear

/-- The C8 run: four replicas "A" < "AB" < "B" < "C" all sharing element
`eid` created by "B"; deletes on "AB", "C", "B"; a resurrecting move on
"B"; merges propagating them — then "A" merges the (unchanged) replica "AB"
twice in a row. -/
def c8B1 : MArray String := (newReplica String ['B']).push eid "x"
def c8A1 : MArray String := (newReplica String ['A']).merge c8B1
def c8C1 : MArray String := (newReplica String ['C']).merge c8B1
def c8E1 : MArray String := (newReplica String ['A','B']).merge c8B1
def c8E2 : MArray String := (c8E1.deleteElem eid).1
def c8C2 : MArray String := (c8C1.deleteElem eid).1
def c8B2 : MArray String := (c8B1.deleteElem eid).1
def c8A2 : MArray String := c8A1.merge c8B2
def c8B3 : MArray String := ((c8B2.move eid 0).map Prod.fst).getD c8B2
def c8C3 : MArray String := c8C2.merge c8B3
def c8A3 : MArray String := c8A2.merge c8C3
/-- First `A.Merge(AB)`. -/
def c8A4 : MArray String := c8A3.merge c8E2
/-- Second, identical `A.Merge(AB)` (the remote replica unchanged). -/
def c8A5 : MArray String := c8A4.merge c8E2

end Scenario

/-! ## Claim C1, C3, C4, C7, C8 -/

/-- C1: ("Strong eventual convergence: for every pair of replicas A and B
with distinct site ids, each holding a state reachable by any sequence of
public operations, after executing A.Merge(B) and then B.Merge(A), A and B
have identical materialized sequences...") — refuted on the code: in the
reachable run `Scenario.c1*` (one push, one relay merge, two concurrent
`Set`s whose value clocks are concurrent but share the dominant replica
"B"), after `A.Merge(B); B.Merge(A)` the two replicas materialize different
sequences, `["v1"]` versus `["v2"]`. -/
theorem C1_convergence_fails :
    Scenario.c1A3.siteID ≠ Scenario.c1B3.siteID ∧
    (Scenario.c1A3.toSlice).1 = ["v1"] ∧
    (Scenario.c1B3.toSlice).1 = ["v2"] ∧
    (Scenario.c1A3.toSlice).1 ≠ (Scenario.c1B3.toSlice).1 := by decide

/-- C3: ("View materialization: ... in particular immediately after any
mutating operation including Merge ... no element whose deleted flag is
true ever appears in the returned sequence.") — refuted on the code: in the
reachable run `Scenario.c3*`, `Merge` flips the element's deleted flag to
true without invalidating the materialized-view cache (the source only
invalidates on new elements and adopted positions), so the very next
`ToSlice` still returns the deleted element's value. -/
theorem C3_view_shows_deleted_element :
    (MArray.lookupE Scenario.c3A2.items Scenario.eid).map Element.deleted = some true ∧
    Scenario.c3A2.cacheValid = true ∧
    (Scenario.c3A2.toSlice).1 = ["x"] := by decide

/-- C4: ("No public operation panics ... In particular, Move(id, k) called
with any known id — including an id whose element is currently deleted and
is the only element, after a read has materialized the cached view — and
any integer k, completes normally and returns true.") — refuted on the
code: in `Scenario.c4A3` (push, delete, then a read that caches the empty
view) the id is known, but `Move` resurrects the element without
invalidating the stale cache, computes `toIndex = len(sorted)-1 = -1` on
the cached empty view and evaluates `sorted[-1]`, a Go panic (modelled as
`none`). -/
theorem C4_move_panics :
    (MArray.lookupE Scenario.c4A3.items Scenario.eid).isSome = true ∧
    (Scenario.c4A3.move Scenario.eid 0).isNone = true := by decide

/-- C7: ("Distinct clocks in bulk restamps: ... sort, reverse, rotate,
shuffle, reindex, clear ... no two distinct elements carry equal (or
shared) clocks for the facet written by that operation.") — refuted on the
code for `Clear` (and likewise `reindexLocked`): `Clear` forks the replica
clock once and stamps a clone of that single clock as the delete clock of
every live element, so two distinct elements end up with equal delete
clocks. -/
theorem C7_clear_shares_delete_clock :
    Scenario.f1 ≠ Scenario.g1 ∧
    (MArray.lookupE Scenario.c7A2.items Scenario.f1).bind Element.deleteClock =
      (MArray.lookupE Scenario.c7A2.items Scenario.g1).bind Element.deleteClock ∧
    ((MArray.lookupE Scenario.c7A2.items Scenario.f1).bind Element.deleteClock).isSome
      = true := by decide

/-- C8: ("Merge idempotence: ... executing A.Merge(B) twice in succession
(with B unchanged in between) leaves A in exactly the same state ... as
executing A.Merge(B) once") — refuted on the code: in the reachable run
`Scenario.c8*`, the first `A.Merge(AB)` resurrects the element (a remote
move clock dominates the local delete clock, which is dropped), while the
second, identical merge re-deletes it (with the local delete clock gone,
the remote delete clock survives the concurrency tiebreak). The element
map after one merge differs from the map after two. -/
theorem C8_merge_not_idempotent :
    (MArray.lookupE Scenario.c8A4.items Scenario.eid).map Element.deleted = some false ∧
    (MArray.lookupE Scenario.c8A5.items Scenario.eid).map Element.deleted = some true := by
  decide

/-! ## Lemmas about the element map and the clock stamping -/

namespace MArray

variable {T : Type}

theorem lookupE_append_fresh {items : List (ElemID × Element T)} {id : ElemID}
    (h : lookupE items id = none) (e : Element T) :
    lookupE (items ++ [(id, e)]) id = some e := by
  induction items with
  | nil => simp [lookupE]
  | cons p rest ih =>
    by_cases hp : p.1 = id
    · simp [lookupE, hp] at h
    · simp only [lookupE, hp, if_neg hp, List.cons_append] at h ⊢
      exact ih h

theorem lookupE_updateE_self {items : List (ElemID × Element T)} {id : ElemID}
    {el : Element T} (h : lookupE items id = some el) (e' : Element T) :
    lookupE (updateE items id e') id = some e' := by
  induction items with
  | nil => simp [lookupE] at h
  | cons p rest ih =>
    by_cases hp : p.1 = id
    · simp [lookupE, updateE, hp]
    · simp only [lookupE, if_neg hp] at h
      have hu : updateE (p :: rest) id e' = p :: updateE rest id e' := by
        simp [updateE, hp]
      rw [hu]
      simp only [lookupE, if_neg hp]
      exact ih h

end MArray

theorem get_setKey_self (vc : VC) (s : SiteID) (c : Nat) :
    (vc.setKey s c).get s = c := by
  unfold VC.setKey
  by_cases hc : (vc.keys).contains s = true
  · rw [if_pos hc]
    rcases keys_contains_iff.mp hc with ⟨c0, hc0⟩
    clear hc
    induction vc with
    | nil => cases hc0
    | cons p rest ih =>
      by_cases hp : p.1 = s
      · simp [VC.get, hp]
      · rcases List.mem_cons.mp hc0 with heq | htl
        · exact absurd (congrArg Prod.fst heq).symm hp
        · simpa [VC.get, hp] using ih htl
  · rw [if_neg hc]
    induction vc with
    | nil => simp [VC.get]
    | cons p rest ih =>
      have hp : p.1 ≠ s := by
        intro hps
        exact hc (keys_contains_iff.mpr ⟨p.2, by rw [← hps]; exact List.mem_cons_self _ _⟩)
      have hc' : (VC.keys rest).contains s ≠ true := by
        intro hx
        rcases keys_contains_iff.mp hx with ⟨c0, h0⟩
        exact hc (keys_contains_iff.mpr ⟨c0, List.mem_cons_of_mem _ h0⟩)
      simpa [VC.get, hp] using ih hc'

theorem get_increment_self (vc : VC) (s : SiteID) :
    (vc.increment s).get s = vc.get s + 1 :=
  get_setKey_self vc s (vc.get s + 1)

section MaxFold

variable {α : Type} [LinearOrder α]

theorem foldl_max_mem (x : α) (xs : List α) : xs.foldl max x ∈ x :: xs := by
  induction xs generalizing x with
  | nil => simp
  | cons y ys ih =>
    simp only [List.foldl_cons]
    rcases List.mem_cons.mp (ih (max x y)) with h | h
    · rcases max_choice x y with hm | hm <;> rw [h, hm]
      · exact List.mem_cons_self _ _
      · exact List.mem_cons_of_mem _ (List.mem_cons_self _ _)
    · exact List.mem_cons_of_mem _ (List.mem_cons_of_mem _ h)

theorem le_foldl_max (x : α) (xs : List α) : ∀ q ∈ x :: xs, q ≤ xs.foldl max x := by
  induction xs generalizing x with
  | nil => intro q hq; simp at hq; simp [hq]
  | cons y ys ih =>
    intro q hq
    simp only [List.foldl_cons]
    rcases List.mem_cons.mp hq with rfl | hq'
    · exact le_trans (le_max_left q y) (ih (max q y) _ (List.mem_cons_self _ _))
    · rcases List.mem_cons.mp hq' with rfl | hq'' 
      · exact le_trans (le_max_right x q) (ih (max x q) _ (List.mem_cons_self _ _))
      · exact ih (max x y) _ (List.mem_cons_of_mem _ hq'')

end MaxFold

/-! ## Claim C5 -/

/-- C5 counterexample: ("Push(v) on a replica whose set of live elements is
empty assigns the new element the position initialIndex (default 1000.0)")
— refuted on the code: on the empty replica `Scenario.c5A` the pushed
element gets position `findMaxIndexLocked() + spacing = 1000 + 1000`, not
`initialIndex = 1000` (the source adds the spacing to the `initialIndex`
fallback as well). -/
theorem C5_push_on_empty_counterexample :
    MArray.lenOf Scenario.c5A = 0 ∧
    Scenario.c5A.config.initialIndex = 1000 ∧
    ¬ ((MArray.lookupE Scenario.c5P.items Scenario.eid).map (fun el => el.index.pos) =
        some Scenario.c5A.config.initialIndex) := by
  refine ⟨rfl, rfl, ?_⟩
  intro hc
  have h : (MArray.lookupE Scenario.c5P.items Scenario.eid).map (fun el => el.index.pos) =
      some ((1000 : ℚ) + 1000) := rfl
  have h3 : Scenario.c5A.config.initialIndex = (1000 : ℚ) := rfl
  rw [h, h3] at hc
  have h2 : ((1000 : ℚ) + 1000) = 1000 := Option.some.inj hc
  norm_num at h2

/-- C5 amended: `Push(v)` assigns position `findMaxIndexLocked() +
indexSpacing`, where `findMaxIndexLocked()` is `initialIndex` when there is
no live element (so the pushed position is `initialIndex + indexSpacing`,
not `initialIndex`) and the maximum live position otherwise. -/
theorem C5_push_position_amended {T : Type} (ma : MArray T) (id : ElemID) (v : T)
    (hfresh : MArray.lookupE ma.items id = none)
    (hks : ma.config.keepSorted = false) :
    (MArray.lookupE (ma.push id v).items id).map (fun el => el.index.pos) =
      some (MArray.findMaxIndex ma + ma.config.indexSpacing) ∧
    (MArray.livePositions ma = [] → MArray.findMaxIndex ma = ma.config.initialIndex) ∧
    (MArray.livePositions ma ≠ [] →
      MArray.findMaxIndex ma ∈ MArray.livePositions ma ∧
        ∀ q ∈ MArray.livePositions ma, q ≤ MArray.findMaxIndex ma) := by
  refine ⟨?_, ?_, ?_⟩
  · unfold MArray.push
    simp only [hks, Bool.false_eq_true, if_false]
    rw [MArray.lookupE_append_fresh hfresh]
    rfl
  · intro h
    unfold MArray.findMaxIndex
    by_cases hi : ma.items.isEmpty
    · rw [if_pos hi]
    · rw [if_neg hi, h]
  · intro h
    unfold MArray.findMaxIndex
    cases hl : MArray.livePositions ma with
    | nil => exact absurd hl h
    | cons x xs =>
      have hne : ma.items.isEmpty = false := by
        cases hi : ma.items with
        | nil =>
          exfalso
          unfold MArray.livePositions at hl
          rw [hi] at hl
          simp at hl
        | cons a as => rfl
      rw [if_neg (by rw [hne]; simp)]
      exact ⟨foldl_max_mem x xs, le_foldl_max x xs⟩

/-- Witness for `C5_push_position_amended` at the concrete empty replica
`Scenario.c5A`. -/
theorem C5_push_position_amended_witness :
    (MArray.lookupE Scenario.c5P.items Scenario.eid).map (fun el => el.index.pos) =
      some (MArray.findMaxIndex Scenario.c5A + Scenario.c5A.config.indexSpacing) ∧
    MArray.findMaxIndex Scenario.c5A = Scenario.c5A.config.initialIndex :=
  ⟨(C5_push_position_amended Scenario.c5A Scenario.eid "x" rfl rfl).1,
   (C5_push_position_amended Scenario.c5A Scenario.eid "x" rfl rfl).2.1 rfl⟩

/-! ## Stamping lemmas for the mutation operations (claim C6) -/

theorem getSortedIds_eta {T : Type} (x : MArray T) :
    MArray.getSortedIds x = ((MArray.getSortedIds x).1, (MArray.getSortedIds x).2) := rfl

theorem getSortedIds_snd_items {T : Type} (x : MArray T) :
    (MArray.getSortedIds x).2.items = x.items := by
  unfold MArray.getSortedIds
  split <;> rfl

theorem getSortedIds_snd_clock {T : Type} (x : MArray T) :
    (MArray.getSortedIds x).2.clock = x.clock := by
  unfold MArray.getSortedIds
  split <;> rfl

theorem getSortedIds_snd_siteID {T : Type} (x : MArray T) :
    (MArray.getSortedIds x).2.siteID = x.siteID := by
  unfold MArray.getSortedIds
  split <;> rfl

theorem getSortedIds_snd_config {T : Type} (x : MArray T) :
    (MArray.getSortedIds x).2.config = x.config := by
  unfold MArray.getSortedIds
  split <;> rfl

theorem getSortedIds_of_valid {T : Type} (x : MArray T) (h : x.cacheValid = true) :
    MArray.getSortedIds x = (x.sortedCache, x) := by
  unfold MArray.getSortedIds
  rw [h]
  rfl

theorem getSortedIds_of_invalid {T : Type} (x : MArray T) (h : x.cacheValid = false) :
    MArray.getSortedIds x =
      ((MArray.sortByLess (fun a b => MArray.elemLess a.2 b.2)
          (x.items.filter (fun p => !p.2.deleted))).map Prod.fst,
       { x with
          sortedCache := (MArray.sortByLess (fun a b => MArray.elemLess a.2 b.2)
            (x.items.filter (fun p => !p.2.deleted))).map Prod.fst
          cacheValid := true }) := by
  unfold MArray.getSortedIds
  rw [h]
  rfl

namespace MArray

variable {T : Type}

theorem lookupE_updateE_other {items : List (ElemID × Element T)} {j id : ElemID}
    (h : j ≠ id) (e : Element T) :
    lookupE (updateE items j e) id = lookupE items id := by
  induction items with
  | nil => rfl
  | cons p rest ih =>
    by_cases hp : p.1 = j
    · have hpid : p.1 ≠ id := by rw [hp]; exact h
      simp only [updateE, List.map_cons, if_pos hp, lookupE, if_neg h, if_neg hpid]
      exact ih
    · simp only [updateE, List.map_cons, if_neg hp, lookupE]
      by_cases hpid : p.1 = id
      · rw [if_pos hpid, if_pos hpid]
      · rw [if_neg hpid, if_neg hpid]
        exact ih

theorem lookupE_mem {items : List (ElemID × Element T)} {id : ElemID} {el : Element T}
    (h : lookupE items id = some el) : (id, el) ∈ items := by
  induction items with
  | nil => cases h
  | cons p rest ih =>
    by_cases hp : p.1 = id
    · simp only [lookupE, if_pos hp] at h
      cases Option.some.inj h
      rw [← hp]
      exact List.mem_cons_self _ _
    · simp only [lookupE, if_neg hp] at h
      exact List.mem_cons_of_mem _ (ih h)

theorem lookupE_modifyE_self {items : List (ElemID × Element T)} {id : ElemID}
    {el : Element T} (h : lookupE items id = some el) (f : Element T → Element T) :
    lookupE (modifyE items id f) id = some (f el) := by
  unfold modifyE
  rw [h]
  exact lookupE_updateE_self h (f el)

theorem lookupE_modifyE_other {items : List (ElemID × Element T)} {j id : ElemID}
    (h : j ≠ id) (f : Element T → Element T) :
    lookupE (modifyE items j f) id = lookupE items id := by
  unfold modifyE
  cases hl : lookupE items j with
  | none => rfl
  | some e => exact lookupE_updateE_other h (f e)

theorem mem_insertSorted {α : Type} (less : α → α → Bool) (a b : α) (l : List α)
    (h : a = b ∨ a ∈ l) : a ∈ insertSorted less b l := by
  induction l with
  | nil =>
    rcases h with rfl | h
    · exact List.mem_cons_self _ _
    · cases h
  | cons c rest ih =>
    unfold insertSorted
    by_cases hb : less b c = true
    · rw [if_pos hb]
      rcases h with rfl | h
      · exact List.mem_cons_self _ _
      · exact List.mem_cons_of_mem _ h
    · rw [if_neg hb]
      rcases h with rfl | h
      · exact List.mem_cons_of_mem _ (ih (Or.inl rfl))
      · rcases List.mem_cons.mp h with rfl | h'
        · exact List.mem_cons_self _ _
        · exact List.mem_cons_of_mem _ (ih (Or.inr h'))

theorem mem_sortByLess {α : Type} (less : α → α → Bool) {a : α} {l : List α}
    (h : a ∈ l) : a ∈ sortByLess less l := by
  induction l with
  | nil => cases h
  | cons c rest ih =>
    unfold sortByLess
    rcases List.mem_cons.mp h with rfl | h'
    · exact mem_insertSorted less a a _ (Or.inl rfl)
    · exact mem_insertSorted less a c _ (Or.inr (ih h'))

/-- An id live in the map appears in the freshly sorted live-id list. -/
theorem mem_sortedLive {x : MArray T} {id : ElemID} {el : Element T}
    (hl : lookupE x.items id = some el) (hlv : el.deleted = false) :
    id ∈ (sortByLess (fun a b => elemLess a.2 b.2)
        (x.items.filter (fun p => !p.2.deleted))).map Prod.fst := by
  apply List.mem_map.mpr
  refine ⟨(id, el), ?_, rfl⟩
  apply mem_sortByLess
  apply List.mem_filter.mpr
  refine ⟨lookupE_mem hl, ?_⟩
  simp [hlv]

/-- Once an element's position clock is the shared clock, the rest of the
restamping pass keeps it at the shared clock. -/
theorem restampShared_keep {sp : ℚ} {sh : VC} {id : ElemID} :
    ∀ (ids : List ElemID) (items : List (ElemID × Element T)) (n : Nat) (el : Element T),
      lookupE items id = some el → el.index.clock = sh →
      ∃ el', lookupE (restampShared sp sh items ids n) id = some el' ∧
        el'.index.clock = sh := by
  intro ids
  induction ids with
  | nil =>
    intro items n el h1 h2
    exact ⟨el, h1, h2⟩
  | cons j rest ih =>
    intro items n el h1 h2
    simp only [restampShared]
    cases hlj : lookupE items j with
    | none => exact ih items (n + 1) el h1 h2
    | some e =>
      by_cases hj : j = id
      · subst hj
        have he : e = el := Option.some.inj (hlj.symm.trans h1)
        subst he
        exact ih _ (n + 1) _ (lookupE_updateE_self h1 _) rfl
      · exact ih _ (n + 1) el ((lookupE_updateE_other hj _).trans h1) h2

/-- An id listed in the restamping pass ends with the shared position
clock. -/
theorem restampShared_hit {sp : ℚ} {sh : VC} {id : ElemID} :
    ∀ (ids : List ElemID) (items : List (ElemID × Element T)) (n : Nat) (el : Element T),
      id ∈ ids → lookupE items id = some el →
      ∃ el', lookupE (restampShared sp sh items ids n) id = some el' ∧
        el'.index.clock = sh := by
  intro ids
  induction ids with
  | nil =>
    intro items n el hm
    cases hm
  | cons j rest ih =>
    intro items n el hm h1
    simp only [restampShared]
    cases hlj : lookupE items j with
    | none =>
      rcases List.mem_cons.mp hm with rfl | hm'
      · rw [h1] at hlj; cases hlj
      · exact ih items (n + 1) el hm' h1
    | some e =>
      by_cases hj : j = id
      · subst hj
        have he : e = el := Option.some.inj (hlj.symm.trans h1)
        subst he
        exact restampShared_keep rest _ (n + 1) _ (lookupE_updateE_self h1 _) rfl
      · rcases List.mem_cons.mp hm with rfl | hm'
        · exact absurd rfl hj
        · exact ih _ (n + 1) el hm' ((lookupE_updateE_other hj _).trans h1)

end MArray

/-- `reindexLocked` on a state with a valid cache restamps every cached id
with the single shared forked clock and advances the replica clock once. -/
theorem reindex_stamp_of_valid {T : Type} (x : MArray T) (hx : x.cacheValid = true)
    {id : ElemID} {el : Element T} (hl : MArray.lookupE x.items id = some el)
    (hmem : id ∈ x.sortedCache) :
    ∃ el', MArray.lookupE (MArray.reindex x).items id = some el' ∧
      el'.index.clock = (x.clock.increment x.siteID).increment x.siteID ∧
      (MArray.reindex x).clock = x.clock.increment x.siteID := by
  unfold MArray.reindex
  rw [getSortedIds_of_valid x hx]
  obtain ⟨el', h1, h2⟩ := MArray.restampShared_hit x.sortedCache x.items 0 el hmem hl
  exact ⟨el', h1, h2, rfl⟩

/-- After `checkReindexLocked` on a state whose element `id` carries a
position clock one ahead of the replica clock, the element still carries a
position clock one ahead of the (possibly advanced) replica clock —
whether or not the reindex fires. -/
theorem checkReindex_stamp {T : Type} (x : MArray T) (id : ElemID)
    {el : Element T} (hl : MArray.lookupE x.items id = some el)
    (hlv : el.deleted = false) (hcv : x.cacheValid = false)
    (hclk : el.index.clock = x.clock.increment x.siteID) :
    ∃ el', MArray.lookupE (MArray.checkReindex x).items id = some el' ∧
      el'.index.clock.get x.siteID = (MArray.checkReindex x).clock.get x.siteID + 1 := by
  unfold MArray.checkReindex
  cases har : x.config.autoReindex with
  | false =>
    simp only [har, Bool.not_false, if_true]
    exact ⟨el, hl, by rw [hclk, get_increment_self]⟩
  | true =>
    simp only [har, Bool.not_true, Bool.false_eq_true, if_false]
    rw [getSortedIds_of_invalid x hcv]
    dsimp only
    by_cases hlen : ((MArray.sortByLess (fun a b => MArray.elemLess a.2 b.2)
        (x.items.filter (fun p => !p.2.deleted))).map Prod.fst).length < 2
    · rw [if_pos hlen]
      exact ⟨el, hl, by rw [hclk, get_increment_self]⟩
    · rw [if_neg hlen]
      set S := (MArray.sortByLess (fun a b => MArray.elemLess a.2 b.2)
        (x.items.filter (fun p => !p.2.deleted))).map Prod.fst with hS
      set x3 : MArray T := { x with sortedCache := S, cacheValid := true } with hx3
      by_cases hneed : ((S.filterMap (fun i =>
            (MArray.lookupE x3.items i).map (fun e => e.index.pos))).zip
          (S.filterMap (fun i =>
            (MArray.lookupE x3.items i).map (fun e => e.index.pos))).tail).any
          (fun pq => decide (pq.2 - pq.1 < x3.config.reindexThreshold)) = true
      · rw [if_pos hneed]
        obtain ⟨el', h1, h2, h3⟩ :=
          reindex_stamp_of_valid x3 rfl hl (MArray.mem_sortedLive hl hlv)
        refine ⟨el', h1, ?_⟩
        rw [h2, h3]
        exact get_increment_self _ _
      · rw [if_neg hneed]
        exact ⟨el, hl, by rw [hclk, get_increment_self]⟩

/-- The auto-reindex maintenance step preserves the one-ahead property of a
freshly stamped position clock. -/
theorem stamp_after_maintenance {T : Type} (x : MArray T) (id : ElemID)
    {el : Element T} (hl : MArray.lookupE x.items id = some el)
    (hlv : el.deleted = false) (hcv : x.cacheValid = false)
    (hclk : el.index.clock = x.clock.increment x.siteID) :
    ∃ el', MArray.lookupE
        (if x.config.autoReindex then MArray.checkReindex x else x).items id = some el' ∧
      el'.index.clock.get x.siteID =
        (if x.config.autoReindex then MArray.checkReindex x else x).clock.get x.siteID + 1 := by
  cases har : x.config.autoReindex with
  | true =>
    simp only [har, if_true]
    exact checkReindex_stamp x id hl hlv hcv hclk
  | false =>
    simp only [har, Bool.false_eq_true, if_false]
    exact ⟨el, hl, by rw [hclk, get_increment_self]⟩

/-- The common stamping tail of `Move`, `MoveAfter` and `MoveBefore`: stamp
the position facet with a fork of the incremented replica clock, then run
the auto-reindex maintenance; the stamped element's position clock stays
one ahead of the replica clock at the local site. -/
theorem stamped_move_tail {T : Type} (ma2 : MArray T) (id : ElemID)
    (elem : Element T) (hl2 : MArray.lookupE ma2.items id = some elem)
    (hlv : elem.deleted = false) (np : ℚ) (s : SiteID) (hs : ma2.siteID = s) :
    (MArray.lookupE
        (let clock' := ma2.clock.increment ma2.siteID
         let iclock := clock'.increment ma2.siteID
         let elem' :=
           { elem with
               index := { pos := np, clock := iclock }
               summary := elem.summary.mergeVC iclock }
         let ma'' :=
           { ma2 with
               items := MArray.updateE ma2.items id elem'
               clock := clock'
               cacheValid := false }
         if ma''.config.autoReindex then MArray.checkReindex ma'' else ma'').items id).map
        (fun e => e.index.clock.get s) =
      some ((let clock' := ma2.clock.increment ma2.siteID
             let iclock := clock'.increment ma2.siteID
             let elem' :=
               { elem with
                   index := { pos := np, clock := iclock }
                   summary := elem.summary.mergeVC iclock }
             let ma'' :=
               { ma2 with
                   items := MArray.updateE ma2.items id elem'
                   clock := clock'
                   cacheValid := false }
             if ma''.config.autoReindex then MArray.checkReindex ma'' else ma'').clock.get s + 1) := by
  subst hs
  obtain ⟨el', h1, h2⟩ :=
    stamp_after_maintenance
      { ma2 with
          items := MArray.updateE ma2.items id
            { elem with
                index := { pos := np,
                           clock := (ma2.clock.increment ma2.siteID).increment ma2.siteID }
                summary := elem.summary.mergeVC
                  ((ma2.clock.increment ma2.siteID).increment ma2.siteID) }
          clock := ma2.clock.increment ma2.siteID
          cacheValid := false }
      id (MArray.lookupE_updateE_self hl2 _) hlv rfl rfl
  show (MArray.lookupE _ id).map (fun e => e.index.clock.get ma2.siteID) = _
  rw [h1]
  exact congrArg some h2

/-- `Push` forks the facet clocks before incrementing the replica clock,
so all three stamped clocks equal the replica clock after the push. -/
theorem stampedPush {T : Type} (ma : MArray T) (id : ElemID) (v : T)
    (hfresh : MArray.lookupE ma.items id = none) (hks : ma.config.keepSorted = false) :
    (MArray.lookupE (ma.push id v).items id).map (fun el => el.value.clock) =
        some (ma.push id v).clock ∧
    (MArray.lookupE (ma.push id v).items id).map (fun el => el.index.clock) =
        some (ma.push id v).clock ∧
    (MArray.lookupE (ma.push id v).items id).map Element.summary =
        some (ma.push id v).clock := by
  unfold MArray.push
  simp only [hks, Bool.false_eq_true, if_false]
  rw [MArray.lookupE_append_fresh hfresh]
  exact ⟨rfl, rfl, rfl⟩

/-- `Unshift` stamps exactly like `Push`. -/
theorem stampedUnshift {T : Type} (ma : MArray T) (id : ElemID) (v : T)
    (hfresh : MArray.lookupE ma.items id = none) (hks : ma.config.keepSorted = false) :
    (MArray.lookupE (ma.unshift id v).items id).map (fun el => el.value.clock) =
        some (ma.unshift id v).clock ∧
    (MArray.lookupE (ma.unshift id v).items id).map (fun el => el.index.clock) =
        some (ma.unshift id v).clock ∧
    (MArray.lookupE (ma.unshift id v).items id).map Element.summary =
        some (ma.unshift id v).clock := by
  unfold MArray.unshift
  simp only [hks, Bool.false_eq_true, if_false]
  rw [MArray.lookupE_append_fresh hfresh]
  exact ⟨rfl, rfl, rfl⟩

/-- The stamping block of `Insert` behaves like `Push`: at the point it
completes, all three stamped clocks equal the replica clock. -/
theorem stampedInsert {T : Type} (ma : MArray T) (id : ElemID) (v : T) (pos : ℚ)
    (hfresh : MArray.lookupE ma.items id = none) :
    (MArray.lookupE (MArray.insertStamp ma id v pos).items id).map
        (fun el => el.value.clock) = some (MArray.insertStamp ma id v pos).clock ∧
    (MArray.lookupE (MArray.insertStamp ma id v pos).items id).map
        (fun el => el.index.clock) = some (MArray.insertStamp ma id v pos).clock ∧
    (MArray.lookupE (MArray.insertStamp ma id v pos).items id).map Element.summary =
        some (MArray.insertStamp ma id v pos).clock := by
  unfold MArray.insertStamp
  dsimp only
  rw [MArray.lookupE_append_fresh hfresh]
  exact ⟨rfl, rfl, rfl⟩

/-- `Set` on a live element stamps the value facet one ahead of the replica
clock at the local site. -/
theorem stampedSet {T : Type} (ma : MArray T) (id : ElemID) (w : T)
    {el : Element T} (hl : MArray.lookupE ma.items id = some el)
    (hdel : el.deleted = false) :
    (MArray.lookupE (ma.set id w).1.items id).map
        (fun e => e.value.clock.get ma.siteID) =
      some ((ma.set id w).1.clock.get ma.siteID + 1) := by
  unfold MArray.set
  rw [hl]
  simp only [hdel, Bool.false_eq_true, if_false]
  rw [MArray.lookupE_updateE_self hl]
  simp only [Option.map_some']
  rw [get_increment_self]

/-- `Delete` on a live element stamps the delete clock one ahead of the
replica clock at the local site. -/
theorem stampedDelete {T : Type} (ma : MArray T) (id : ElemID)
    {el : Element T} (hl : MArray.lookupE ma.items id = some el)
    (hdel : el.deleted = false) :
    ((MArray.lookupE (ma.deleteElem id).1.items id).bind Element.deleteClock).map
        (fun c => c.get ma.siteID) =
      some ((ma.deleteElem id).1.clock.get ma.siteID + 1) := by
  unfold MArray.deleteElem
  rw [hl]
  simp only [hdel, Bool.false_eq_true, if_false]
  rw [MArray.lookupE_updateE_self hl]
  simp only [Option.some_bind, Option.map_some']
  rw [get_increment_self]

/-- `Move` on a known id (returning normally) leaves the moved element's
position clock one ahead of the replica clock at the local site, including
when the auto-reindex maintenance re-stamps positions. -/
theorem stampedMove {T : Type} (ma : MArray T) (id : ElemID) (k : Int)
    {el0 : Element T} (hl : MArray.lookupE ma.items id = some el0) :
    ∀ st b, ma.move id k = some (st, b) →
      (MArray.lookupE st.items id).map (fun e => e.index.clock.get ma.siteID) =
        some (st.clock.get ma.siteID + 1) := by
  intro st b hmv
  unfold MArray.move at hmv
  rw [hl] at hmv
  dsimp only at hmv
  rw [Option.map_eq_some'] at hmv
  obtain ⟨np, hnp, heq⟩ := hmv
  injection heq with h1 h2
  subst h1
  apply stamped_move_tail
  · rw [getSortedIds_snd_items]
    exact MArray.lookupE_updateE_self hl _
  · cases hd : el0.deleted <;> simp [hd]
  · rw [getSortedIds_snd_siteID]

/-- `MoveAfter` on a known mover and a live anchor succeeds and leaves the
mover's position clock one ahead of the replica clock at the local site. -/
theorem stampedMoveAfter {T : Type} (ma : MArray T) (id afterID : ElemID)
    {el0 elA : Element T} (hl : MArray.lookupE ma.items id = some el0)
    (hlA : MArray.lookupE ma.items afterID = some elA) (hdA : elA.deleted = false) :
    (ma.moveAfter id afterID).2 = true ∧
      (MArray.lookupE (ma.moveAfter id afterID).1.items id).map
          (fun e => e.index.clock.get ma.siteID) =
        some ((ma.moveAfter id afterID).1.clock.get ma.siteID + 1) := by
  unfold MArray.moveAfter
  rw [hl, hlA]
  simp only [hdA, Bool.false_eq_true, if_false]
  refine ⟨trivial, ?_⟩
  apply stamped_move_tail
  · rw [getSortedIds_snd_items]
    exact MArray.lookupE_updateE_self hl _
  · cases hd : el0.deleted <;> simp [hd]
  · rw [getSortedIds_snd_siteID]

/-- `MoveBefore` on a known mover and a live anchor succeeds and leaves the
mover's position clock one ahead of the replica clock at the local site. -/
theorem stampedMoveBefore {T : Type} (ma : MArray T) (id beforeID : ElemID)
    {el0 elB : Element T} (hl : MArray.lookupE ma.items id = some el0)
    (hlB : MArray.lookupE ma.items beforeID = some elB) (hdB : elB.deleted = false) :
    (ma.moveBefore id beforeID).2 = true ∧
      (MArray.lookupE (ma.moveBefore id beforeID).1.items id).map
          (fun e => e.index.clock.get ma.siteID) =
        some ((ma.moveBefore id beforeID).1.clock.get ma.siteID + 1) := by
  unfold MArray.moveBefore
  rw [hl, hlB]
  simp only [hdB, Bool.false_eq_true, if_false]
  refine ⟨trivial, ?_⟩
  apply stamped_move_tail
  · rw [getSortedIds_snd_items]
    exact MArray.lookupE_updateE_self hl _
  · cases hd : el0.deleted <;> simp [hd]
  · rw [getSortedIds_snd_siteID]

/-- `Swap` on two distinct live elements succeeds, stamps the first element
with a clock equal to the final replica clock, and the second with a clock
one ahead at the local site. -/
theorem stampedSwap {T : Type} (ma : MArray T) (id1 id2 : ElemID)
    {e1 e2 : Element T} (hl1 : MArray.lookupE ma.items id1 = some e1)
    (hl2 : MArray.lookupE ma.items id2 = some e2)
    (hd1 : e1.deleted = false) (hd2 : e2.deleted = false) (hne : id1 ≠ id2) :
    (ma.swap id1 id2).2 = true ∧
      (MArray.lookupE (ma.swap id1 id2).1.items id1).map (fun e => e.index.clock) =
        some (ma.swap id1 id2).1.clock ∧
      (MArray.lookupE (ma.swap id1 id2).1.items id2).map
          (fun e => e.index.clock.get ma.siteID) =
        some ((ma.swap id1 id2).1.clock.get ma.siteID + 1) := by
  unfold MArray.swap
  rw [hl1, hl2]
  simp only [hd1, hd2, Bool.or_self, Bool.false_eq_true, if_false]
  refine ⟨trivial, ?_, ?_⟩
  · rw [MArray.lookupE_modifyE_other (Ne.symm hne),
        MArray.lookupE_modifyE_self
          ((MArray.lookupE_modifyE_other (Ne.symm hne) _).trans
            (MArray.lookupE_modifyE_self hl1 _))]
    rfl
  · rw [MArray.lookupE_modifyE_self
          ((MArray.lookupE_modifyE_other hne _).trans
            (MArray.lookupE_modifyE_self
              ((MArray.lookupE_modifyE_other hne _).trans hl2) _))]
    simp only [Option.map_some']
    rw [get_increment_self]

/-! ## Claim C6 -/

/-- C6 counterexample: ("every local mutation (push, ...) ... after the
operation, each written facet clock's component for the local site exceeds
the replica clock's component for the local site by exactly one") — refuted
on the code for `Push`: `Push` forks the facet clocks *before* incrementing
the replica clock, so after a push on a fresh replica the value facet's
local component (1) equals the replica clock's local component (1) instead
of exceeding it by one. -/
theorem C6_push_stamp_counterexample :
    ¬ ((MArray.lookupE Scenario.c5P.items Scenario.eid).map
          (fun el => el.value.clock.get Scenario.c5P.siteID) =
        some (Scenario.c5P.clock.get Scenario.c5P.siteID + 1)) := by decide

/-- Two-element base replica for the C6 witness: site `A` pushes `f1` then
`g1`, so both are live and a third id `eid` is fresh. -/
def Scenario.c6Base : MArray String :=
  ((newReplica String ['A']).push Scenario.f1 "x").push Scenario.g1 "y"

/-- C6 amended: the claim's per-operation clock-stamping discipline holds in
a corrected form.  Mutations of existing elements — `Set`, `Delete`, `Move`,
`MoveAfter`, `MoveBefore` — increment the replica clock first and then stamp
the written facet with a fork incremented once more, so the written facet
clock's local component exceeds the replica clock's by exactly one after
the operation (for the move family this persists through the automatic
reindex maintenance, whose shared re-stamp is again one ahead of the
replica clock; `Move` is stated on its normal returns, since it can panic,
see `C4_move_panics`).  The creation operations — `Push`, `Unshift`, and
the stamping block of `Insert` — instead fork the replica clock for each
facet *before* incrementing it, and stamp the summary the same way rather
than merging into it, so at the point their stamping completes all three
written clocks equal the replica clock (local components equal, not greater
by one; `Insert`'s position and summary may later be re-stamped by the
auto-reindex maintenance).  `Swap` stamps its two elements under successive
replica-clock increments, so the first element's position clock equals the
final replica clock and only the second element's exceeds it by one at the
local site. -/
theorem C6_stamping_amended {T : Type} (ma : MArray T) (idN idL idL2 : ElemID)
    (v w : T) (k : Int) (pos : ℚ)
    (hfresh : MArray.lookupE ma.items idN = none)
    (hks : ma.config.keepSorted = false)
    (hlive : (MArray.lookupE ma.items idL).map Element.deleted = some false)
    (hlive2 : (MArray.lookupE ma.items idL2).map Element.deleted = some false)
    (hne : idL ≠ idL2) :
    ((MArray.lookupE (ma.push idN v).items idN).map (fun el => el.value.clock) =
        some (ma.push idN v).clock ∧
      (MArray.lookupE (ma.push idN v).items idN).map (fun el => el.index.clock) =
        some (ma.push idN v).clock ∧
      (MArray.lookupE (ma.push idN v).items idN).map Element.summary =
        some (ma.push idN v).clock) ∧
    ((MArray.lookupE (ma.unshift idN v).items idN).map (fun el => el.value.clock) =
        some (ma.unshift idN v).clock ∧
      (MArray.lookupE (ma.unshift idN v).items idN).map (fun el => el.index.clock) =
        some (ma.unshift idN v).clock ∧
      (MArray.lookupE (ma.unshift idN v).items idN).map Element.summary =
        some (ma.unshift idN v).clock) ∧
    ((MArray.lookupE (MArray.insertStamp ma idN v pos).items idN).map
        (fun el => el.value.clock) = some (MArray.insertStamp ma idN v pos).clock ∧
      (MArray.lookupE (MArray.insertStamp ma idN v pos).items idN).map
        (fun el => el.index.clock) = some (MArray.insertStamp ma idN v pos).clock ∧
      (MArray.lookupE (MArray.insertStamp ma idN v pos).items idN).map
        Element.summary = some (MArray.insertStamp ma idN v pos).clock) ∧
    ((MArray.lookupE (ma.set idL w).1.items idL).map
        (fun el => el.value.clock.get ma.siteID) =
      some ((ma.set idL w).1.clock.get ma.siteID + 1)) ∧
    (((MArray.lookupE (ma.deleteElem idL).1.items idL).bind Element.deleteClock).map
        (fun c => c.get ma.siteID) =
      some ((ma.deleteElem idL).1.clock.get ma.siteID + 1)) ∧
    (∀ st b, ma.move idL k = some (st, b) →
      (MArray.lookupE st.items idL).map (fun e => e.index.clock.get ma.siteID) =
        some (st.clock.get ma.siteID + 1)) ∧
    ((ma.moveAfter idL idL2).2 = true ∧
      (MArray.lookupE (ma.moveAfter idL idL2).1.items idL).map
          (fun e => e.index.clock.get ma.siteID) =
        some ((ma.moveAfter idL idL2).1.clock.get ma.siteID + 1)) ∧
    ((ma.moveBefore idL idL2).2 = true ∧
      (MArray.lookupE (ma.moveBefore idL idL2).1.items idL).map
          (fun e => e.index.clock.get ma.siteID) =
        some ((ma.moveBefore idL idL2).1.clock.get ma.siteID + 1)) ∧
    ((ma.swap idL idL2).2 = true ∧
      (MArray.lookupE (ma.swap idL idL2).1.items idL).map (fun e => e.index.clock) =
        some (ma.swap idL idL2).1.clock ∧
      (MArray.lookupE (ma.swap idL idL2).1.items idL2).map
          (fun e => e.index.clock.get ma.siteID) =
        some ((ma.swap idL idL2).1.clock.get ma.siteID + 1)) := by
  cases hLx : MArray.lookupE ma.items idL with
  | none => rw [hLx] at hlive; cases hlive
  | some elL =>
    cases hLy : MArray.lookupE ma.items idL2 with
    | none => rw [hLy] at hlive2; cases hlive2
    | some elL2 =>
      rw [hLx] at hlive
      rw [hLy] at hlive2
      have hdL : elL.deleted = false := Option.some.inj hlive
      have hdL2 : elL2.deleted = false := Option.some.inj hlive2
      exact ⟨stampedPush ma idN v hfresh hks,
             stampedUnshift ma idN v hfresh hks,
             stampedInsert ma idN v pos hfresh,
             stampedSet ma idL w hLx hdL,
             stampedDelete ma idL hLx hdL,
             stampedMove ma idL k hLx,
             stampedMoveAfter ma idL idL2 hLx hLy hdL2,
             stampedMoveBefore ma idL idL2 hLx hLy hdL2,
             stampedSwap ma idL idL2 hLx hLy hdL hdL2 hne⟩

/-- Witness for `C6_stamping_amended` at the two-element replica
`Scenario.c6Base`: a fresh push gets a value clock equal to the replica
clock; a `Set` of a live element gets a value clock one ahead at the site;
`Swap` succeeds, stamps the first element with the final replica clock and
the second one ahead at the site. -/
theorem C6_stamping_amended_witness :
    ((MArray.lookupE (Scenario.c6Base.push Scenario.eid "z").items
          Scenario.eid).map (fun el => el.value.clock) =
        some (Scenario.c6Base.push Scenario.eid "z").clock) ∧
    ((MArray.lookupE (Scenario.c6Base.set Scenario.f1 "w").1.items
          Scenario.f1).map (fun el => el.value.clock.get Scenario.c6Base.siteID) =
        some ((Scenario.c6Base.set Scenario.f1 "w").1.clock.get
          Scenario.c6Base.siteID + 1)) ∧
    ((Scenario.c6Base.swap Scenario.f1 Scenario.g1).2 = true ∧
      (MArray.lookupE (Scenario.c6Base.swap Scenario.f1 Scenario.g1).1.items
          Scenario.f1).map (fun e => e.index.clock) =
        some (Scenario.c6Base.swap Scenario.f1 Scenario.g1).1.clock ∧
      (MArray.lookupE (Scenario.c6Base.swap Scenario.f1 Scenario.g1).1.items
          Scenario.g1).map (fun e => e.index.clock.get Scenario.c6Base.siteID) =
        some ((Scenario.c6Base.swap Scenario.f1 Scenario.g1).1.clock.get
          Scenario.c6Base.siteID + 1)) :=
  ⟨(C6_stamping_amended Scenario.c6Base Scenario.eid Scenario.f1 Scenario.g1
      "z" "w" 0 0 (by decide) rfl (by decide) (by decide) (by decide)).1.1,
   (C6_stamping_amended Scenario.c6Base Scenario.eid Scenario.f1 Scenario.g1
      "z" "w" 0 0 (by decide) rfl (by decide) (by decide) (by decide)).2.2.2.1,
   (C6_stamping_amended Scenario.c6Base Scenario.eid Scenario.f1 Scenario.g1
      "z" "w" 0 0 (by decide) rfl (by decide) (by decide) (by decide)).2.2.2.2.2.2.2.2⟩

/-! ## Claim C9 -/

/-- C9: ("Failure atomicity of Set and Delete: ... Set(id, v) and
Delete(id) return false and leave the entire replica state unchanged
whenever id is not present in the element map or refers to an element whose
deleted flag is true; when id refers to a known live element they return
true.") — confirmed: both operations return the input state unchanged with
`false` on an unknown or deleted id, and return `true` on a live id. -/
theorem C9_set_delete_atomicity {T : Type} (ma : MArray T) (id : ElemID) (v : T) :
    ((MArray.lookupE ma.items id = none ∨
        (MArray.lookupE ma.items id).map Element.deleted = some true) →
      ma.set id v = (ma, false) ∧ ma.deleteElem id = (ma, false)) ∧
    ((MArray.lookupE ma.items id).map Element.deleted = some false →
      (ma.set id v).2 = true ∧ (ma.deleteElem id).2 = true) := by
  constructor
  · intro h
    cases hl : MArray.lookupE ma.items id with
    | none =>
      constructor
      · unfold MArray.set; rw [hl]
      · unfold MArray.deleteElem; rw [hl]
    | some el =>
      have hdel : el.deleted = true := by
        rcases h with h | h
        · rw [hl] at h; cases h
        · rw [hl] at h; exact Option.some.inj h
      constructor
      · unfold MArray.set; rw [hl]; simp [hdel]
      · unfold MArray.deleteElem; rw [hl]; simp [hdel]
  · intro h
    cases hl : MArray.lookupE ma.items id with
    | none => rw [hl] at h; cases h
    | some el =>
      rw [hl] at h
      have hdel : el.deleted = false := Option.some.inj h
      constructor
      · unfold MArray.set; rw [hl]; simp [hdel]
      · unfold MArray.deleteElem; rw [hl]; simp [hdel]

/-- Witness for `C9_set_delete_atomicity`: on the empty replica both
operations fail and change nothing; on the one-element replica both
succeed. -/
theorem C9_set_delete_atomicity_witness :
    (Scenario.c5A.set Scenario.eid "v" = (Scenario.c5A, false) ∧
      Scenario.c5A.deleteElem Scenario.eid = (Scenario.c5A, false)) ∧
    ((Scenario.c5P.set Scenario.eid "v").2 = true ∧
      (Scenario.c5P.deleteElem Scenario.eid).2 = true) :=
  ⟨(C9_set_delete_atomicity Scenario.c5A Scenario.eid "v").1 (Or.inl rfl),
   (C9_set_delete_atomicity Scenario.c5P Scenario.eid "v").2 (by decide)⟩

/-! ## Claim C10 -/

/-- The sequence of mutex operations the body of `Merge(other)` performs,
read off the source: `ma.mu.Lock()` at entry with a deferred
`ma.mu.Unlock()`; the body then iterates `other.items` and reads `other`'s
element state without any operation on `other.mu` (there is no
`other.mu.RLock()` anywhere in `Merge`). -/
inductive LockAction where
  | lockSelfExclusive
  | unlockSelfExclusive
  | lockOtherShared
  | unlockOtherShared
  deriving DecidableEq

/-- The lock trace of `Merge`. -/
def mergeLockTrace : List LockAction :=
  [LockAction.lockSelfExclusive, LockAction.unlockSelfExclusive]

/-- C10 counterexample: ("Merge(other) acquires the calling replica's
readers-writer lock exclusively and acquires other's lock in shared mode
for the duration of the merge") — refuted on the code: `Merge` never
acquires `other`'s lock at all; no shared acquisition of `other.mu` occurs
in its lock trace. -/
theorem C10_no_shared_lock_on_other :
    LockAction.lockOtherShared ∉ mergeLockTrace := by decide

/-- C10 amended: `Merge(other)` acquires only the calling replica's lock
(exclusively, released at exit) and reads `other`'s element map without
acquiring `other`'s lock in any mode. -/
theorem C10_merge_locks_only_self :
    mergeLockTrace = [LockAction.lockSelfExclusive, LockAction.unlockSelfExclusive] ∧
    ∀ a ∈ mergeLockTrace,
      a = LockAction.lockSelfExclusive ∨ a = LockAction.unlockSelfExclusive := by decide

/-! ## Claim C2: the delete-vs-move resolution -/

theorem concB_iff {a b : VC} :
    a.concB b = true ↔ a.afterB b = false ∧ b.afterB a = false := by
  unfold VC.concB
  cases h1 : a.afterB b <;> cases h2 : b.afterB a <;> simp

/-- Well-formedness of an element as produced by the public API: facet
clocks are well-formed maps, and the deleted flag agrees with the presence
of the delete clock. -/
def ElementWF {T : Type} (e : Element T) : Prop :=
  e.value.clock.wf ∧ e.index.clock.wf ∧
    (∀ c, e.deleteClock = some c → VC.wf c) ∧
    (e.deleted = true ↔ e.deleteClock.isSome = true)

theorem resolveCandidates_ne_nil {T : Type} (a b : Element T) :
    MArray.resolveCandidates a b ≠ [] := by
  unfold MArray.resolveCandidates
  cases a.deleteClock <;> cases b.deleteClock <;> simp

theorem mem_resolveCandidates_iff {T : Type} {a b : Element T} {o : DelOp} :
    o ∈ MArray.resolveCandidates a b ↔
      ((∃ c, a.deleteClock = some c ∧ o = ⟨c, true⟩) ∨
       (∃ c, b.deleteClock = some c ∧ o = ⟨c, true⟩) ∨
       o = ⟨a.index.clock, false⟩ ∨ o = ⟨b.index.clock, false⟩) := by
  unfold MArray.resolveCandidates
  rcases hA : a.deleteClock with _ | c1 <;> rcases hB : b.deleteClock with _ | c2 <;>
    simp [hA, hB, List.mem_append, List.mem_cons]

/-- The selection loop, seen through `resolveDeleteStatusLWW`: the returned
flag is the tag of a winning candidate. -/
theorem resolveDeleteStatus_spec {T : Type} (a b : Element T)
    (hwf : ∀ o ∈ MArray.resolveCandidates a b, o.clock.wf) :
    ∃ w ∈ MArray.resolveCandidates a b,
      MArray.resolveDeleteStatus a b = w.isDelete ∧
      ∀ o ∈ MArray.resolveCandidates a b, WinsOver w o := by
  obtain ⟨w, hmem, hpick, hwin⟩ :=
    pickLatest_spec _ hwf (resolveCandidates_ne_nil a b)
  refine ⟨w, hmem, ?_, hwin⟩
  unfold MArray.resolveDeleteStatus
  rw [hpick]

/-- If the index LWW adopted the remote position clock, a winner that beats
the remote position clock also beats the replaced local one. -/
theorem winsOver_adopted_bridge {w : DelOp} {lmc rmc : VC}
    (hw : w.clock.wf) (hlm : lmc.wf) (hrm : rmc.wf)
    (hAd : rmc.afterB lmc = true ∨
      (lmc.concB rmc = true ∧ lmc.maxSite < rmc.maxSite))
    (hrw : WinsOver w ⟨rmc, false⟩) : WinsOver w ⟨lmc, false⟩ := by
  obtain ⟨hr1, hr2⟩ := hrw
  simp only [WinsOver] at hr1 hr2 ⊢
  constructor
  · cases hx : VC.afterB lmc w.clock
    · rfl
    · exfalso
      rcases hAd with hA | ⟨hC, hms⟩
      · have hcon : VC.afterB rmc w.clock = true := afterB_trans hrm hlm hw hA hx
        rw [hr1] at hcon
        cases hcon
      · have hwle : w.clock.maxSite ≤ lmc.maxSite := maxSite_le_of_afterB hlm hw hx
        rcases hr2 with h | h
        · have hcon : VC.afterB lmc rmc = true := afterB_trans hlm hw hrm hx h
          rw [(concB_iff.mp hC).1] at hcon
          cases hcon
        · exact absurd (lt_of_le_of_lt (le_trans h hwle) hms) (lt_irrefl _)
  · rcases hAd with hA | ⟨hC, hms⟩
    · rcases hr2 with h | h
      · exact Or.inl (afterB_trans hw hrm hlm h hA)
      · exact Or.inr (le_trans (maxSite_le_of_afterB hrm hlm hA) h)
    · rcases hr2 with h | h
      · exact Or.inr (le_of_lt (lt_of_lt_of_le hms (maxSite_le_of_afterB hw hrm h)))
      · exact Or.inr (le_of_lt (lt_of_lt_of_le hms h))

/-- C2: ("Delete-vs-move resolution: when Merge(remote) processes an
element id present on both replicas, the resulting local deleted flag
equals the isDelete tag of the winning candidate among at most four
operations — local delete clock and remote delete clock ... and local and
remote position clocks — where the winner is the candidate whose clock is
not dominated (After) by any other candidate, ties among mutually
concurrent candidates broken in favor of the clock with the
lexicographically greater dominantReplica; when the winner is tagged delete
the dominating delete clock is preserved, and when it is tagged not-delete
the local deleteClock is set to nil.") — confirmed: `mergeElementWithLWW`
produces a deleted flag equal to the tag of a candidate that no other
candidate's clock dominates and whose `GetMaxSite` is maximal among
candidates it does not itself dominate; a surviving delete keeps a delete
clock of one of the two replicas that no present delete clock dominates; a
surviving move clears the delete clock. -/
theorem C2_delete_vs_move {T : Type} (L R : Element T)
    (hL : ElementWF L) (hR : ElementWF R) :
    ∃ w ∈ MArray.resolveCandidates L R,
      (∀ o ∈ MArray.resolveCandidates L R, WinsOver w o) ∧
      (MArray.mergeElement L R).1.deleted = w.isDelete ∧
      ((MArray.mergeElement L R).1.deleted = true →
        ∃ d, (MArray.mergeElement L R).1.deleteClock = some d ∧
          (L.deleteClock = some d ∨ R.deleteClock = some d) ∧
          ∀ c, (L.deleteClock = some c ∨ R.deleteClock = some c) →
            VC.afterB c d = false) ∧
      ((MArray.mergeElement L R).1.deleted = false →
        (MArray.mergeElement L R).1.deleteClock = none) := by
  have hdel_eq : (MArray.mergeElement L R).1.deleted =
      MArray.resolveDeleteStatus (MArray.postFacet L R) R := rfl
  have hdc_eq : (MArray.mergeElement L R).1.deleteClock =
      MArray.mergedDeleteClock L R := rfl
  have hPdc : (MArray.postFacet L R).deleteClock = L.deleteClock := rfl
  have hPwf : ∀ o ∈ MArray.resolveCandidates (MArray.postFacet L R) R, o.clock.wf := by
    intro o ho
    rw [mem_resolveCandidates_iff] at ho
    rcases ho with ⟨c, hc, rfl⟩ | ⟨c, hc, rfl⟩ | rfl | rfl
    · exact hL.2.2.1 c hc
    · exact hR.2.2.1 c hc
    · by_cases hAd : MArray.adoptIndex L R = true <;>
        simp only [MArray.postFacet, MArray.mergeIndexFacet, hAd, if_true,
          Bool.false_eq_true, if_false]
      · exact hR.2.1
      · exact hL.2.1
    · exact hR.2.1
  obtain ⟨w, hmem, hres, hwin⟩ :=
    resolveDeleteStatus_spec (MArray.postFacet L R) R hPwf
  -- the winner's tag is the resulting flag
  have hwdel : (MArray.mergeElement L R).1.deleted = w.isDelete := by
    rw [hdel_eq, hres]
  -- clause: a surviving delete keeps an undominated delete clock
  have hclause1 : (MArray.mergeElement L R).1.deleted = true →
      ∃ d, (MArray.mergeElement L R).1.deleteClock = some d ∧
        (L.deleteClock = some d ∨ R.deleteClock = some d) ∧
        ∀ c, (L.deleteClock = some c ∨ R.deleteClock = some c) →
          VC.afterB c d = false := by
    intro hd
    have hres' : MArray.resolveDeleteStatus (MArray.postFacet L R) R = true := by
      rw [← hdel_eq]; exact hd
    rw [hdc_eq]
    unfold MArray.mergedDeleteClock
    rw [hres']
    simp only [if_true]
    by_cases hRd : R.deleted = true
    · simp only [hRd, if_true]
      have hsome : R.deleteClock.isSome = true := hR.2.2.2.mp hRd
      rcases hrdc : R.deleteClock with _ | rdc
      · rw [hrdc] at hsome; cases hsome
      · rcases hldc : L.deleteClock with _ | ldc
        · refine ⟨rdc, rfl, Or.inr rfl, ?_⟩
          intro c hc
          rcases hc with hc | hc
          · cases hc
          · cases Option.some.inj hc
            exact afterB_irrefl (hR.2.2.1 rdc hrdc)
        · by_cases hra : VC.afterB rdc ldc = true
          · refine ⟨rdc, by simp [hra], Or.inr rfl, ?_⟩
            intro c hc
            rcases hc with hc | hc
            · cases Option.some.inj hc
              exact afterB_asymm (hR.2.2.1 rdc hrdc) (hL.2.2.1 ldc hldc) hra
            · cases Option.some.inj hc
              exact afterB_irrefl (hR.2.2.1 rdc hrdc)
          · have hra' : VC.afterB rdc ldc = false := by
              cases hx : VC.afterB rdc ldc
              · rfl
              · exact absurd hx hra
            refine ⟨ldc, by simp [hra'], Or.inl rfl, ?_⟩
            intro c hc
            rcases hc with hc | hc
            · cases Option.some.inj hc
              exact afterB_irrefl (hL.2.2.1 ldc hldc)
            · cases Option.some.inj hc
              exact hra'
    · -- remote not deleted: the result keeps the local delete clock,
      -- which must exist because the winner is a delete candidate
      have hRdf : R.deleted = false := by
        cases hx : R.deleted
        · rfl
        · exact absurd hx hRd
      have hRn : R.deleteClock = none := by
        rcases hx : R.deleteClock with _ | c
        · rfl
        · exact absurd (hR.2.2.2.mpr (by rw [hx]; rfl)) hRd
      simp only [hRdf, Bool.false_eq_true, if_false]
      have hwtag : w.isDelete = true := by rw [← hwdel]; exact hd
      rw [mem_resolveCandidates_iff] at hmem
      rcases hmem with ⟨c, hc, rfl⟩ | ⟨c, hc, rfl⟩ | hw | hw
      · have hcL : L.deleteClock = some c := hc
        refine ⟨c, hcL, Or.inl hcL, ?_⟩
        intro c' hc'
        rcases hc' with hc' | hc'
        · rw [hcL] at hc'
          cases Option.some.inj hc'
          exact afterB_irrefl (hL.2.2.1 _ hcL)
        · rw [hRn] at hc'; cases hc'
      · rw [hRn] at hc; cases hc
      · rw [hw] at hwtag; cases hwtag
      · rw [hw] at hwtag; cases hwtag
  -- clause: a surviving move clears the delete clock
  have hclause2 : (MArray.mergeElement L R).1.deleted = false →
      (MArray.mergeElement L R).1.deleteClock = none := by
    intro hd
    have hres' : MArray.resolveDeleteStatus (MArray.postFacet L R) R = false := by
      rw [← hdel_eq]; exact hd
    rw [hdc_eq]
    unfold MArray.mergedDeleteClock
    rw [hres']
    simp
  -- transfer membership and the winning conditions to the claim's
  -- candidate set (built from the pre-merge local position clock)
  by_cases hAd : MArray.adoptIndex L R = true
  · have h1 : (MArray.postFacet L R).index.clock = R.index.clock := by
      simp only [MArray.postFacet, MArray.mergeIndexFacet, hAd, if_true]
    have hAd2 : R.index.clock.afterB L.index.clock = true ∨
        (L.index.clock.concB R.index.clock = true ∧
          L.index.clock.maxSite < R.index.clock.maxSite) := by
      unfold MArray.adoptIndex at hAd
      simpa [Bool.or_eq_true, Bool.and_eq_true, decide_eq_true_eq] using hAd
    have hrwmem : (⟨R.index.clock, false⟩ : DelOp) ∈
        MArray.resolveCandidates (MArray.postFacet L R) R :=
      mem_resolveCandidates_iff.mpr (Or.inr (Or.inr (Or.inr rfl)))
    have hww : w.clock.wf := hPwf w (by
      rw [mem_resolveCandidates_iff] at hmem ⊢
      exact hmem)
    have hmem' : w ∈ MArray.resolveCandidates L R := by
      rw [mem_resolveCandidates_iff] at hmem ⊢
      rcases hmem with ⟨c, hc, rfl⟩ | ⟨c, hc, rfl⟩ | hw | hw
      · exact Or.inl ⟨c, hc, rfl⟩
      · exact Or.inr (Or.inl ⟨c, hc, rfl⟩)
      · rw [h1] at hw
        exact Or.inr (Or.inr (Or.inr hw))
      · exact Or.inr (Or.inr (Or.inr hw))
    refine ⟨w, hmem', ?_, hwdel, hclause1, hclause2⟩
    intro o ho
    rw [mem_resolveCandidates_iff] at ho
    rcases ho with ⟨c, hc, rfl⟩ | ⟨c, hc, rfl⟩ | rfl | rfl
    · exact hwin _ (mem_resolveCandidates_iff.mpr (Or.inl ⟨c, hc, rfl⟩))
    · exact hwin _ (mem_resolveCandidates_iff.mpr (Or.inr (Or.inl ⟨c, hc, rfl⟩)))
    · exact winsOver_adopted_bridge hww hL.2.1 hR.2.1 hAd2 (hwin _ hrwmem)
    · exact hwin _ hrwmem
  · have h1 : (MArray.postFacet L R).index.clock = L.index.clock := by
      simp only [MArray.postFacet, MArray.mergeIndexFacet, hAd, Bool.false_eq_true, if_false]
    have hEq : MArray.resolveCandidates (MArray.postFacet L R) R =
        MArray.resolveCandidates L R := by
      unfold MArray.resolveCandidates
      rw [hPdc, h1]
    rw [hEq] at hmem hwin
    exact ⟨w, hmem, hwin, hwdel, hclause1, hclause2⟩

/-- A concrete live local element for exercising `C2_delete_vs_move`. -/
def c2L : Element String :=
  { id := ['e']
    value := { data := "a", clock := [(['A'], 1)] }
    index := { pos := 0, clock := [(['A'], 1)] }
    summary := [(['A'], 1)]
    deleted := false
    deleteClock := none }

/-- A concrete deleted remote element (its delete clock dominates the
shared position clock). -/
def c2R : Element String :=
  { id := ['e']
    value := { data := "a", clock := [(['A'], 1)] }
    index := { pos := 0, clock := [(['A'], 1)] }
    summary := [(['A'], 1), (['B'], 2)]
    deleted := true
    deleteClock := some [(['A'], 1), (['B'], 2)] }

/-- Witness for `C2_delete_vs_move` at the concrete pair `c2L`, `c2R`. -/
theorem C2_delete_vs_move_witness :
    ElementWF c2L ∧ ElementWF c2R ∧
    (∃ w ∈ MArray.resolveCandidates c2L c2R,
      (∀ o ∈ MArray.resolveCandidates c2L c2R, WinsOver w o) ∧
      (MArray.mergeElement c2L c2R).1.deleted = w.isDelete ∧
      ((MArray.mergeElement c2L c2R).1.deleted = true →
        ∃ d, (MArray.mergeElement c2L c2R).1.deleteClock = some d ∧
          (c2L.deleteClock = some d ∨ c2R.deleteClock = some d) ∧
          ∀ c, (c2L.deleteClock = some c ∨ c2R.deleteClock = some c) →
            VC.afterB c d = false) ∧
      ((MArray.mergeElement c2L c2R).1.deleted = false →
        (MArray.mergeElement c2L c2R).1.deleteClock = none)) :=
  by
  have hL : ElementWF c2L := by
    refine ⟨by decide, by decide, ?_, by decide⟩
    intro c hc
    cases hc
  have hR : ElementWF c2R := by
    refine ⟨by decide, by decide, ?_, by decide⟩
    intro c hc
    rw [← Option.some.inj hc]
    decide
  exact ⟨hL, hR, C2_delete_vs_move c2L c2R hL hR⟩
